import Mathlib

/-!
Shallow embedding of the clause extraction and patch-application core of the
lexflow-architect repository, together with theorems settling the frozen
claims about it.

Source files embedded:
- `src/backend/services/parser.py` (`LegalDocParser`): header matching,
  clause tree building, reference extraction;
- `src/services/legal_patch.py` (`LegalPatchApplier`): patch application;
- `src/backend/models/legal_objects.py`: the `Clause` / `LegalPatch` shapes.

Modelling conventions:
- Python strings are Lean `String`s; character-level work happens on `.data`.
- The dynamic `metadata` dict is embedded as a typed record (the spec's §9
  design note prescribes exactly this refactoring). `metadata["paragraphs"]`
  may be absent or a non-list value in Python; both are treated identically
  by the code (`isinstance` check), so they are jointly modelled as `none`.
- `uuid.uuid4()` is modelled by a deterministic fresh-id counter; the code
  only relies on ids being stable, and no claim needs more.
- Machine integers do not occur (Python ints are unbounded; all our numbers
  are list lengths), so `Nat` is used directly.
-/

namespace LexFlow

/-- Python `str.isspace`-style whitespace as used by `str.strip()` and the
regex class `\s` (ASCII part; inputs of interest are ASCII). -/
def isPySpace (c : Char) : Bool :=
  c = ' ' || c = '\t' || c = '\n' || c = '\r' || c = '\x0b' || c = '\x0c'

/-- Regex word character `\w` (ASCII part): letters, digits, underscore.
Used to decide the `\b` word boundaries in the header regexes. -/
def isWordChar (c : Char) : Bool :=
  c.isAlphanum || c = '_'

/-- The character class `[IVXLC]` under `re.IGNORECASE`: the flag makes the
class match lower-case Roman-numeral letters as well. -/
def isRomanChar (c : Char) : Bool :=
  c = 'I' || c = 'V' || c = 'X' || c = 'L' || c = 'C' ||
  c = 'i' || c = 'v' || c = 'x' || c = 'l' || c = 'c'

/-- Both-ends trim on char lists: `dropWhile` from the left then
`rdropWhile` from the right.  Embeds Python `str.strip()` (no argument). -/
def stripL (l : List Char) : List Char :=
  List.rdropWhile isPySpace (List.dropWhile isPySpace l)

/-- Python `str.strip()` on strings. -/
def pyStrip (s : String) : String :=
  ⟨stripL s.data⟩

/-- The character set of `.strip(" \t-–—:.")` used on header remainders. -/
def punctChars : List Char :=
  [' ', '\t', '-', '–', '—', ':', '.']

/-- Both-ends trim with an explicit character set: Python `str.strip(chars)`. -/
def stripSetL (cs : List Char) (l : List Char) : List Char :=
  List.rdropWhile (fun c => c ∈ cs) (List.dropWhile (fun c => c ∈ cs) l)

/-- Character scanner for `re.sub(r"\s+", " ", text)`: the flag records
whether the scan is inside a whitespace run (whose first character has
already emitted the single replacement space). -/
def collapseAux : Bool → List Char → List Char
  | _, [] => []
  | inRun, c :: cs =>
    if isPySpace c then
      if inRun then collapseAux true cs else ' ' :: collapseAux true cs
    else c :: collapseAux false cs

/-- `re.sub(r"\s+", " ", text)`: collapse each whitespace run to one space. -/
def collapseWSL (l : List Char) : List Char :=
  collapseAux false l

/-- `"\n\n".join` of a list of strings (Python `str.join` semantics). -/
def joinNN : List String → String
  | [] => ""
  | [s] => s
  | s :: t :: r => s ++ "\n\n" ++ joinNN (t :: r)

/-! ## Data model (`src/backend/models/legal_objects.py`) -/

/-- The paragraph formatting descriptor produced by
`LegalDocParser._extract_paragraph_formatting` and consumed by the patch
applier (`{bold, italic, alignment, style}`). -/
structure Formatting where
  bold : Bool
  italic : Bool
  alignment : Option String
  style : Option String
deriving DecidableEq

/-- The default formatting descriptor `default_fmt` of
`LegalPatchApplier.apply`. -/
def default_fmt : Formatting :=
  { bold := false, italic := false, alignment := none, style := none }

/-- One entry of `metadata["paragraphs"]`: a dict `{"text": ..,
"formatting": ..}`.  `formatting` is `Option`al to model `dict.get`
returning `None` when absent. -/
structure Paragraph where
  text : String
  formatting : Option Formatting
deriving DecidableEq

/-- The `_HeaderMatch` dataclass of `parser.py` (also the shape of
`metadata["header"]`). -/
structure HeaderMatch where
  header_type : String
  number : String
  remainder : String
  level : Nat
deriving DecidableEq

/-- The five members of the `LegalPatchChangeType` enum. -/
inductive LegalPatchChangeType
  | replace
  | insert_before
  | insert_after
  | append
  | delete
deriving DecidableEq

/-- A runtime value of the `change_type` field.  Python's dynamic typing
permits a value outside the enum to reach `LegalPatchApplier.apply`
(e.g. via `model_construct`, which skips validation); the code's own
final `else` branch defends against exactly that.  `other` models such an
out-of-enum value. -/
inductive ChangeTypeValue
  | valid (ct : LegalPatchChangeType)
  | other (s : String)
deriving DecidableEq

/-- The `LegalPatch` model. -/
structure LegalPatch where
  target_clause_id : String
  change_type : ChangeTypeValue
  proposed_text : String
  reasoning : String
deriving DecidableEq

/-- The `metadata` dict of a clause, typed (spec §9 prescribes this typed
variant).  `paragraphs = none` models the key being absent or holding a
non-list value — the two cases `apply` merges via its `isinstance` check.
`legal_patches` defaults to `[]`, matching `setdefault("legal_patches", [])`. -/
structure ClauseMetadata where
  header : HeaderMatch
  header_formatting : Option Formatting
  paragraphs : Option (List Paragraph)
  legal_patches : List LegalPatch
deriving DecidableEq

/-- The `Clause` model. -/
structure Clause where
  id : String
  order_index : Nat
  title : Option String
  text : String
  metadata : ClauseMetadata
  parent_id : Option String
deriving DecidableEq

/-! ## Header matcher (`LegalDocParser._match_header` and its regexes)

The two anchored regexes are
`^\s*Article\s+(?P<num>(?:\d+|[IVXLC]+))\b(?P<rest>.*)$` and
`^\s*Section\s+(?P<num>\d+(?:\.\d+)*)\b(?P<rest>.*)$`, both `re.IGNORECASE`.
They are embedded as explicit character-list parsers that reproduce the
regex engine's behaviour, including the backtracking that matters: inside a
maximal digit/letter run no word boundary exists, so the only productive
backtracking is dropping the final `.\d+` group of a section number when
the character after it is a word character. -/

/-- Case-insensitive literal keyword match; returns the rest of the input.
`kw` is given in lower case. -/
def matchKeywordCI : List Char → List Char → Option (List Char)
  | [], s => some s
  | _ :: _, [] => none
  | k :: ks, c :: cs => if c.toLower = k then matchKeywordCI ks cs else none

/-- The `\b` boundary after a number: the run just parsed ends in a word
character, so the boundary holds iff the next character is not a word
character (or the input ends). -/
def boundaryOk : List Char → Bool
  | [] => true
  | c :: _ => !(isWordChar c)

/-- `(?:\d+|[IVXLC]+)\b` at the current position: a maximal digit run or a
maximal Roman-letter run followed by a word boundary.  Backtracking to a
shorter run never helps (no boundary inside a run), matching the engine. -/
def parseArticleNum (s : List Char) : Option (List Char × List Char) :=
  match s with
  | [] => none
  | c :: _ =>
    if c.isDigit then
      let num := s.takeWhile Char.isDigit
      let rest := s.dropWhile Char.isDigit
      if boundaryOk rest then some (num, rest) else none
    else if isRomanChar c then
      let num := s.takeWhile isRomanChar
      let rest := s.dropWhile isRomanChar
      if boundaryOk rest then some (num, rest) else none
    else none

/-- Greedily consume `(?:\.\d+)*`: returns the digit groups and the rest.
Rendered without general recursion: take the maximal digit-or-dot run,
split it on dots, and keep the leading groups that are all non-empty (the
first empty segment marks where the regex iteration stops: a dot not
followed by a digit, or a leading digit run that cannot occur here). -/
def takeDotGroups (l : List Char) : List (List Char) × List Char :=
  let run := l.takeWhile (fun c => c.isDigit || c = '.')
  match List.splitOn '.' run with
  | [] => ([], l)
  | first :: restSegs =>
    if first = ([] : List Char) then
      let gs := restSegs.takeWhile (fun g => g ≠ [])
      let consumed := gs.flatMap (fun g => '.' :: g)
      (gs, l.drop consumed.length)
    else ([], l)

/-- Rebuild a dotted number from its first digit run and the later groups. -/
def dottedNum (d1 : List Char) (gs : List (List Char)) : List Char :=
  d1 ++ gs.flatMap (fun g => '.' :: g)

/-- `\d+(?:\.\d+)*\b` at the current position.  If the boundary after the
greedy match fails (next char is a word character), the engine backtracks
by dropping the final `.\d+` group, after which the boundary (before the
`.`) necessarily holds; with no group to drop the match fails. -/
def parseSectionNum (s : List Char) : Option (List Char × List Char) :=
  let d1 := s.takeWhile Char.isDigit
  let r1 := s.dropWhile Char.isDigit
  if d1 = [] then none
  else
    let p := takeDotGroups r1
    if boundaryOk p.2 then some (dottedNum d1 p.1, p.2)
    else
      match p.1.reverse with
      | [] => none
      | lastG :: revInit =>
        some (dottedNum d1 revInit.reverse, '.' :: (lastG ++ p.2))

/-- `(?P<rest>.*)$` (no DOTALL, no MULTILINE): `.*` cannot cross a newline
and `$` matches only at the end or before a single trailing newline. -/
def dotStarDollar (s : List Char) : Option (List Char) :=
  let rest := s.takeWhile (fun c => c ≠ '\n')
  let after := s.dropWhile (fun c => c ≠ '\n')
  if after = [] ∨ after = ['\n'] then some rest else none

/-- The keyword `Article` in lower case, as a char list. -/
def articleKW : List Char := ['a', 'r', 't', 'i', 'c', 'l', 'e']

/-- The keyword `Section` in lower case, as a char list. -/
def sectionKW : List Char := ['s', 'e', 'c', 't', 'i', 'o', 'n']

/-- `\s+` then a number parser then `.*$`: the shared tail of both header
regexes after their keyword. -/
def afterKeyword (numParse : List Char → Option (List Char × List Char))
    (s : List Char) : Option (List Char × List Char) :=
  match s with
  | [] => none
  | c :: cs =>
    if isPySpace c then
      match numParse (cs.dropWhile isPySpace) with
      | some (num, r) => (dotStarDollar r).map (fun rest => (num, rest))
      | none => none
    else none

/-- Full-match of `_ARTICLE_RE` against a char list: returns the `num` and
`rest` capture groups. -/
def articleMatch (s : List Char) : Option (List Char × List Char) :=
  match matchKeywordCI articleKW (s.dropWhile isPySpace) with
  | some s2 => afterKeyword parseArticleNum s2
  | none => none

/-- Full-match of `_SECTION_RE` against a char list. -/
def sectionMatch (s : List Char) : Option (List Char × List Char) :=
  match matchKeywordCI sectionKW (s.dropWhile isPySpace) with
  | some s2 => afterKeyword parseSectionNum s2
  | none => none

/-- `LegalDocParser._match_header`. -/
def _match_header (text : String) : Option HeaderMatch :=
  match articleMatch text.data with
  | some (num, rest) =>
    some { header_type := "article", number := ⟨num⟩,
           remainder := ⟨stripSetL punctChars rest⟩, level := 1 }
  | none =>
    match sectionMatch text.data with
    | some (num, rest) =>
      let depth := (List.splitOn '.' num).length
      some { header_type := "section", number := ⟨num⟩,
             remainder := ⟨stripSetL punctChars rest⟩,
             level := 2 + max (depth - 1) 0 }
    | none => none

/-- `LegalDocParser._normalize_header_title`:
`re.sub(r"\s+", " ", text).strip()`. -/
def _normalize_header_title (text : String) : String :=
  pyStrip ⟨collapseWSL text.data⟩

/-- Lower-case a string character-wise (Python `str.lower`, ASCII part). -/
def lowerStr (s : String) : String :=
  ⟨s.data.map Char.toLower⟩

/-- `LegalDocParser._header_key`: re-run the two header regexes against a
title and normalize to `"article <num>"` / `"section <num>"`. -/
def _header_key (title : String) : Option String :=
  match articleMatch title.data with
  | some (num, _) => some ("article " ++ lowerStr ⟨num⟩)
  | none =>
    match sectionMatch title.data with
    | some (num, _) => some ("section " ++ lowerStr ⟨num⟩)
    | none => none

/-! ## Reference scanner (`_REF_RE` / `_find_reference_keys`)

`_REF_RE = \b(?:(Article)\s+(\d+|[IVXLC]+)|(Section)\s+(\d+(?:\.\d+)*))\b`
with `re.IGNORECASE`, driven by `finditer`: scan left to right, try a match
at each position, resume after the end of each match.  The leading `\b`
holds iff the previous character is not a word character (the keyword
starts with a letter). -/

/-- Try the `(Article)\s+(num)\b` alternative at the current position;
returns the normalized key and the rest after the match. -/
def refArticleAt (s : List Char) : Option (String × List Char) :=
  match matchKeywordCI articleKW s with
  | some (c :: cs) =>
    if isPySpace c then
      match parseArticleNum (cs.dropWhile isPySpace) with
      | some (num, r) => some ("article " ++ lowerStr ⟨num⟩, r)
      | none => none
    else none
  | _ => none

/-- Try the `(Section)\s+(num)\b` alternative at the current position. -/
def refSectionAt (s : List Char) : Option (String × List Char) :=
  match matchKeywordCI sectionKW s with
  | some (c :: cs) =>
    if isPySpace c then
      match parseSectionNum (cs.dropWhile isPySpace) with
      | some (num, r) => some ("section " ++ lowerStr ⟨num⟩, r)
      | none => none
    else none
  | _ => none

/-- Try `_REF_RE` at the current position (article alternative first, as in
the regex alternation). -/
def refMatchAt (s : List Char) : Option (String × List Char) :=
  match refArticleAt s with
  | some r => some r
  | none => refSectionAt s

/-- The `finditer` scan.  `prevW` records whether the previous character is
a word character (for the leading `\b`).  Every match ends in a digit or
Roman letter, so scanning resumes with `prevW = true`.  The fuel is a
plain upper bound on the number of steps; each step consumes at least one
character, so `length + 1` fuel always suffices. -/
def scanRefs : Nat → Bool → List Char → List String
  | 0, _, _ => []
  | _ + 1, _, [] => []
  | fuel + 1, prevW, c :: cs =>
    match (if prevW then none else refMatchAt (c :: cs)) with
    | some (key, rest) => key :: scanRefs fuel true rest
    | none => scanRefs fuel (isWordChar c) cs

/-- `LegalDocParser._find_reference_keys`. -/
def _find_reference_keys (text : String) : List String :=
  scanRefs (text.data.length + 1) false text.data

/-! ## Clause tree builder (`LegalDocParser._parse_document`)

The builder consumes the document-codec collaborator's paragraph stream as
(raw text, formatting descriptor) pairs — the formatting extractor itself
reads the binary document format and is outside the embedded core.  The
Python loop mutates clause objects shared between the output list and the
stack; here the stack holds `(level, index)` pairs into the clause list
(the spec's §9 design note prescribes this index-based rendering) and
paragraph appends rewrite the indexed list entry. -/

/-- One record of the input paragraph stream: text plus the formatting
descriptor that `_extract_paragraph_formatting` would produce for it. -/
structure ParaIn where
  text : String
  formatting : Formatting
deriving DecidableEq

/-- Deterministic stand-in for `uuid.uuid4()`. -/
def genId (n : Nat) : String :=
  "uuid-" ++ toString n

/-- `LegalDocParser._new_clause`. -/
def _new_clause (id : String) (title : Option String) (parent_id : Option String)
    (header : HeaderMatch) (header_formatting : Option Formatting) : Clause :=
  { id := id, order_index := 0, title := title, text := "", parent_id := parent_id,
    metadata := { header := { header with remainder := pyStrip header.remainder },
                  header_formatting := header_formatting,
                  paragraphs := some [], legal_patches := [] } }

/-- `LegalDocParser._append_paragraph`. -/
def _append_paragraph (clause : Clause) (text : String) (formatting : Formatting) : Clause :=
  let paragraphs :=
    match clause.metadata.paragraphs with
    | some ps => ps ++ [⟨text, some formatting⟩]
    | none => [⟨text, some formatting⟩]
  let existing := pyStrip clause.text
  { clause with
    metadata := { clause.metadata with paragraphs := some paragraphs },
    text := if existing = "" then text else pyStrip (existing ++ "\n\n" ++ text) }

/-- `LegalDocParser._parent_id_for_level`: innermost stack entry whose
level is strictly below the new level (stack head = top of stack). -/
def _parent_id_for_level (clauses : List Clause) (stack : List (Nat × Nat))
    (level : Nat) : Option String :=
  match stack.find? (fun e => e.1 < level) with
  | some e => (clauses[e.2]?).map Clause.id
  | none => none

/-- Replace the clause at index `i` by `f` of it (in-place mutation of a
shared clause object, rendered on the index-based state). -/
def updateAt : List Clause → Nat → (Clause → Clause) → List Clause
  | [], _, _ => []
  | c :: cs, 0, f => f c :: cs
  | c :: cs, i + 1, f => c :: updateAt cs i f

/-- The scanning state of `_parse_document`: output list so far, nesting
stack of `(level, clause index)` with the innermost entry first, the index
of the preamble clause once created, and the fresh-id counter. -/
structure ParseState where
  clauses : List Clause
  stack : List (Nat × Nat)
  preamble : Option Nat
  nextId : Nat

/-- The preamble's synthetic header descriptor. -/
def preambleHeader : HeaderMatch :=
  { header_type := "preamble", number := "", remainder := "", level := 1 }

/-- One iteration of the paragraph loop of `_parse_document`. -/
def parseStep (st : ParseState) (para : ParaIn) : ParseState :=
  let text := pyStrip para.text
  if text = "" then st
  else
    match _match_header text with
    | some header =>
      let clause := _new_clause (genId st.nextId) (some (_normalize_header_title text))
        (_parent_id_for_level st.clauses st.stack header.level) header (some para.formatting)
      { clauses := st.clauses ++ [clause],
        stack := (header.level, st.clauses.length) ::
          st.stack.dropWhile (fun e => header.level ≤ e.1),
        preamble := st.preamble,
        nextId := st.nextId + 1 }
    | none =>
      match st.stack with
      | e :: _ =>
        { st with clauses :=
            updateAt st.clauses e.2 (fun c => _append_paragraph c text para.formatting) }
      | [] =>
        match st.preamble with
        | some pidx =>
          { st with clauses :=
              updateAt st.clauses pidx (fun c => _append_paragraph c text para.formatting) }
        | none =>
          let pre := _new_clause (genId st.nextId) (some "Preamble") none preambleHeader none
          { clauses := updateAt (st.clauses ++ [pre]) st.clauses.length
              (fun c => _append_paragraph c text para.formatting),
            stack := st.stack,
            preamble := some st.clauses.length,
            nextId := st.nextId + 1 }

/-- The final pass assigning sequential `order_index` values. -/
def assignOrderIdx : Nat → List Clause → List Clause
  | _, [] => []
  | i, c :: cs => { c with order_index := i } :: assignOrderIdx (i + 1) cs

/-- `LegalDocParser._parse_document`, over the paragraph stream. -/
def _parse_document (paras : List ParaIn) : List Clause :=
  let final := paras.foldl parseStep ⟨[], [], none, 0⟩
  assignOrderIdx 0 final.clauses

/-! ## Patch applier (`src/services/legal_patch.py`) -/

/-- The two distinguishable `ValueError` kinds raised by
`LegalPatchApplier.apply`. -/
inductive PatchError
  | targetNotFound (target_clause_id : String)
  | unsupportedOperation (change_type : ChangeTypeValue)
deriving DecidableEq

deriving instance DecidableEq for Except

/-- The `text` recomputation of `apply`:
`"\n\n".join((p.get("text") or "").strip() for p in paragraphs).strip()`.
(`p.get("text") or ""` is the identity on the typed model: `text` is
always present, and `or ""` maps only the empty string to itself.) -/
def renderText (paragraphs : List Paragraph) : String :=
  pyStrip (joinNN (paragraphs.map (fun p => pyStrip p.text)))

/-- `LegalPatchApplier._patch_dump`: the full patch content recorded into
the history (the typed patch value itself). -/
def _patch_dump (patch : LegalPatch) : LegalPatch :=
  patch

namespace LegalPatchApplier

/-- The per-target-clause body of `apply`: read the paragraph list (absent
or non-list becomes `[]` and is written back), compute `first_fmt` /
`last_fmt` (`(... or default_fmt)` renders as `Option.getD default_fmt`),
dispatch on the change type, rebuild `text`, append the patch history
record. -/
def applyToClause (patch : LegalPatch) (target : Clause) : Except PatchError Clause :=
  let paragraphs := target.metadata.paragraphs.getD []
  let first_fmt :=
    match paragraphs.head? with
    | some p => p.formatting.getD default_fmt
    | none => default_fmt
  let last_fmt :=
    match paragraphs.getLast? with
    | some p => p.formatting.getD default_fmt
    | none => default_fmt
  let newPs : Except PatchError (List Paragraph) :=
    match patch.change_type with
    | .valid .replace => .ok [⟨patch.proposed_text, some first_fmt⟩]
    | .valid .insert_before => .ok (⟨patch.proposed_text, some first_fmt⟩ :: paragraphs)
    | .valid .insert_after => .ok (paragraphs ++ [⟨patch.proposed_text, some last_fmt⟩])
    | .valid .append => .ok (paragraphs ++ [⟨patch.proposed_text, some last_fmt⟩])
    | .valid .delete => .ok []
    | .other _ => .error (.unsupportedOperation patch.change_type)
  newPs.map (fun ps =>
    { target with
      text := renderText ps,
      metadata := { target.metadata with
                    paragraphs := some ps,
                    legal_patches := target.metadata.legal_patches ++ [_patch_dump patch] } })

/-- The copy-then-update of `apply`, rendered structurally: the deep copy
of the list is the value itself, the first clause whose id equals the
target id is rewritten, all others are returned unchanged, and a missing
target yields the `targetNotFound` error.  (In the Python code the copy
happens before the search; the observable result is identical.) -/
def applyToList : List Clause → LegalPatch → Except PatchError (List Clause)
  | [], patch => .error (.targetNotFound patch.target_clause_id)
  | c :: cs, patch =>
    if c.id = patch.target_clause_id then
      (applyToClause patch c).map (· :: cs)
    else
      (applyToList cs patch).map (c :: ·)

/-- `LegalPatchApplier.apply`. -/
def apply (clauses : List Clause) (patch : LegalPatch) : Except PatchError (List Clause) :=
  applyToList clauses patch

end LegalPatchApplier

/-! ## Reference extractor (`LegalDocParser.extract_references`) -/

/-- A reference edge `{src, dst, kind}`. -/
structure Reference where
  src : String
  dst : String
  kind : String
deriving DecidableEq

/-- The header key a clause contributes to the lookup, if any:
`if not c.title: continue` skips both a missing title and an empty one,
then `_header_key` may fail. -/
def clauseKey (c : Clause) : Option String :=
  match c.title with
  | none => none
  | some t => if t = "" then none else _header_key t

/-- The `(key, id)` assignments performed by the lookup-building loop of
`extract_references`, in clause-list order. -/
def key_to_id_pairs (clauses : List Clause) : List (String × String) :=
  clauses.filterMap (fun c => (clauseKey c).map (fun k => (k, c.id)))

/-- Python dict assignment semantics over those pairs: the last write to a
key wins; `dict.get` of an unwritten key is `None`. -/
def dictGet (pairs : List (String × String)) (k : String) : Option String :=
  (pairs.reverse.find? (fun e => e.1 = k)).map (fun e => e.2)

/-- `LegalDocParser.extract_references`.  `if not target_id or target_id ==
c.id: continue` drops unresolved keys, keys resolving to a falsy (empty)
id, and self-references. -/
def extract_references (clauses : List Clause) : List Reference :=
  let pairs := key_to_id_pairs clauses
  clauses.foldl (fun refs c =>
    refs ++ (_find_reference_keys c.text).filterMap (fun ref_key =>
      match dictGet pairs ref_key with
      | none => none
      | some target_id =>
        if target_id = "" ∨ target_id = c.id then none
        else some ⟨c.id, target_id, ref_key⟩)) []

/-! ## Spec-side and auxiliary definitions used by the claim statements -/

/-- The claim's literal derivation of `text`: the paragraph texts joined
with a blank-line separator and trimmed (no per-paragraph trimming). -/
def textJoinTrimmed (paragraphs : List Paragraph) : String :=
  pyStrip (joinNN (paragraphs.map Paragraph.text))

/-- The derivation law the code actually maintains: `text` equals the
paragraph texts trimmed individually, joined with a blank line, and
trimmed overall (the shape of the recomputation in
`LegalPatchApplier.apply`, which `_append_paragraph` preserves). -/
def textLaw (c : Clause) : Prop :=
  c.text = renderText (c.metadata.paragraphs.getD [])

/-- Erase the applied-patch history, leaving every other part of the
clause state intact. -/
def stripHistory (c : Clause) : Clause :=
  { c with metadata := { c.metadata with legal_patches := [] } }

/-- The Reference Extractor output as the spec's §4.4 words describe it:
one reference per resolved mention, dropping exactly the self-references
and the unresolved mentions, in clause-list order then in-text match
order, without deduplication. -/
def referencesSpec (clauses : List Clause) : List Reference :=
  clauses.flatMap (fun c =>
    (_find_reference_keys c.text).filterMap (fun ref_key =>
      match dictGet (key_to_id_pairs clauses) ref_key with
      | none => none
      | some dst => if dst = c.id then none else some ⟨c.id, dst, ref_key⟩))

/-- A non-blank input line (survives the `if not text: continue` skip). -/
def isContentLine (s : String) : Bool :=
  pyStrip s ≠ ""

/-- A line the builder recognizes as a header. -/
def isHeaderLine (s : String) : Bool :=
  isContentLine s && (_match_header (pyStrip s)).isSome

/-- Number of recognized header lines in a paragraph stream. -/
def countHeaders (paras : List ParaIn) : Nat :=
  paras.countP (fun p => isHeaderLine p.text)

/-- Whether some non-blank non-header line occurs before the first
recognized header. -/
def hasLeadingBody (paras : List ParaIn) : Bool :=
  (paras.takeWhile (fun p => !(isHeaderLine p.text))).any (fun p => isContentLine p.text)

/-- The claim-side shape of a header line: after optional leading
whitespace, the line starts with the given keyword, compared
case-insensitively. -/
def keywordPrefixCI (kw : List Char) (s : String) : Prop :=
  ∃ ws rest, s.data = ws ++ rest ∧ (∀ c ∈ ws, isPySpace c = true) ∧
    (rest.take kw.length).map Char.toLower = kw

/-- Internal invariant of clauses built by the Clause Tree Builder: the
paragraph list is present, every stored paragraph text is non-blank and
already trimmed (the builder strips each line and skips blanks), and the
denormalized `text` is the rendering of the paragraph list. -/
abbrev textInvClause (c : Clause) : Prop :=
  ∃ ps, c.metadata.paragraphs = some ps ∧
    (∀ q ∈ ps, pyStrip q.text = q.text ∧ q.text ≠ "") ∧
    c.text = renderText ps

/-- All clauses of a list satisfy the builder text invariant. -/
abbrev clausesTextInv (cls : List Clause) : Prop :=
  ∀ c ∈ cls, textInvClause c

/-- Every nesting-stack entry indexes a clause of the output list whose
recorded header level equals the stack level. -/
abbrev stackLevelInv (st : ParseState) : Prop :=
  ∀ e ∈ st.stack, ∃ c, st.clauses[e.2]? = some c ∧ c.metadata.header.level = e.1

/-- The nesting invariant of C5 over a clause list: a parent appears
strictly earlier and its header level is strictly smaller. -/
abbrev parentInv (cls : List Clause) : Prop :=
  ∀ (j : Nat) (c : Clause) (pid : String), cls[j]? = some c → c.parent_id = some pid →
    ∃ i ci, i < j ∧ cls[i]? = some ci ∧ ci.id = pid ∧
      ci.metadata.header.level < c.metadata.header.level

/-- Combined builder scanning invariant. -/
abbrev builderInv (st : ParseState) : Prop :=
  stackLevelInv st ∧ parentInv st.clauses

/-- The extra clause the preamble contributes, relative to a scan state:
one iff no header is open yet, no preamble exists yet, and a non-blank
non-header line occurs before the first header of the remaining input. -/
def preambleExtra (st : ParseState) (paras : List ParaIn) : Nat :=
  if st.stack.isEmpty && st.preamble.isNone && hasLeadingBody paras then 1 else 0

/-- A two-line document: an article header followed by a nested section. -/
def c5paras : List ParaIn :=
  [⟨"Article 1", default_fmt⟩, ⟨"Section 1.1", default_fmt⟩]

/-- The second clause the builder produces for `c5paras`: the section,
nested under the article. -/
def c5child : Clause :=
  { id := "uuid-1", order_index := 1, title := some "Section 1.1", text := "",
    parent_id := some "uuid-0",
    metadata := { header := { header_type := "section", number := "1.1",
                              remainder := "", level := 3 },
                  header_formatting := some default_fmt,
                  paragraphs := some [], legal_patches := [] } }

/-- Sample-clause constructor for concrete counterexamples and witnesses. -/
def sampleClause (id : String) (title : Option String) (text : String)
    (ps : Option (List Paragraph)) (lp : List LegalPatch) : Clause :=
  { id := id, order_index := 0, title := title, text := text, parent_id := none,
    metadata := { header := preambleHeader, header_formatting := none,
                  paragraphs := ps, legal_patches := lp } }

/-- Concrete clause whose paragraph texts are already trimmed. -/
def c1ex : Clause :=
  sampleClause "c1" none "x" (some [⟨"x", some default_fmt⟩]) []

/-- An `append` patch whose proposed text carries surrounding whitespace. -/
def p1ex : LegalPatch :=
  ⟨"c1", .valid .append, " b ", "pad"⟩

/-- The clause `apply` produces for `c1ex` under `p1ex`. -/
def c1exOut : Clause :=
  sampleClause "c1" none "x\n\nb"
    (some [⟨"x", some default_fmt⟩, ⟨" b ", some default_fmt⟩]) [p1ex]

/-- Concrete one-paragraph clause for the replace-idempotence analysis. -/
def c3ex : Clause :=
  sampleClause "c3" none "x" (some [⟨"x", some default_fmt⟩]) []

/-- A concrete `replace` patch targeting `c3ex`. -/
def p3ex : LegalPatch :=
  ⟨"c3", .valid .replace, "y", "because"⟩

/-- The clause `apply` produces for `c3ex` under `p3ex`. -/
def c3exOut : Clause :=
  sampleClause "c3" none "y" (some [⟨"y", some default_fmt⟩]) [p3ex]

/-- A patch carrying an out-of-enum change type. -/
def pBogusEx : LegalPatch :=
  ⟨"c3", .other "bogus", "", "r"⟩

/-- A clause whose `metadata["paragraphs"]` is absent (or not a list). -/
def c10ex : Clause :=
  sampleClause "c10" none "x" none []

/-- An `append` patch targeting `c10ex`. -/
def p10ex : LegalPatch :=
  ⟨"c10", .valid .append, "np", "r"⟩

/-- The clause a second application of `p3ex` produces from `c3exOut`:
identical except for the doubled patch history. -/
def c3exOut2 : Clause :=
  sampleClause "c3" none "y" (some [⟨"y", some default_fmt⟩]) [p3ex, p3ex]

/-- A clause whose id is the empty string but whose title forms a key. -/
def c8e : Clause := sampleClause "" (some "Article 1") "" (some []) []

/-- A clause mentioning the empty-id clause's key in its body. -/
def c8m : Clause := sampleClause "m" none "See Article 1." (some []) []

/-- Two clauses whose titles normalize to the same header key. -/
def c9a : Clause := sampleClause "idA" (some "Article 1") "" (some []) []

/-- Second clause with the duplicate title (later in list order). -/
def c9b : Clause := sampleClause "idB" (some "Article 1") "" (some []) []

/-- A clause mentioning the duplicated key in its body. -/
def c9c : Clause :=
  sampleClause "idC" (some "Article 2") "See Article 1." (some []) []

/-! ## String lemmas: `strip` and `join` laws -/

theorem stripL_eq_self_iff (l : List Char) :
    stripL l = l ↔
      ((∀ c, l.head? = some c → isPySpace c = false) ∧
       (∀ c, l.getLast? = some c → isPySpace c = false)) := by
  constructor
  · intro h
    have hpre : stripL l <+: List.dropWhile isPySpace l := List.rdropWhile_prefix _ _
    have hsuf : List.dropWhile isPySpace l <:+ l := List.dropWhile_suffix _
    have hdw : List.dropWhile isPySpace l = l := by
      apply hsuf.eq_of_length
      have e1 : (stripL l).length = l.length := by rw [h]
      have le1 := hpre.length_le
      have le2 := hsuf.length_le
      omega
    have hrdw : List.rdropWhile isPySpace l = l := by
      have : stripL l = List.rdropWhile isPySpace l := by unfold stripL; rw [hdw]
      rw [← this, h]
    refine ⟨?_, ?_⟩
    · intro c hc
      have h0 := List.dropWhile_eq_self_iff.mp hdw
      match l, hc with
      | a :: t, hc =>
        have := h0 (by simp)
        simp only [List.head?_cons, Option.some.injEq] at hc
        simp only [List.get] at this
        subst hc
        simpa using this
    · intro c hc
      have h0 := List.rdropWhile_eq_self_iff.mp hrdw
      have hne : l ≠ [] := by
        intro he
        subst he
        simp at hc
      have := h0 hne
      rw [List.getLast?_eq_getLast l hne] at hc
      simp only [Option.some.injEq] at hc
      subst hc
      simpa using this
  · rintro ⟨h1, h2⟩
    have hdw : List.dropWhile isPySpace l = l := by
      rw [List.dropWhile_eq_self_iff]
      intro hl
      match l, hl with
      | a :: t, _ =>
        have := h1 a (by simp)
        simp only [List.get]
        simp [this]
    unfold stripL
    rw [hdw, List.rdropWhile_eq_self_iff]
    intro hl
    have := h2 (l.getLast hl) (List.getLast?_eq_getLast l hl)
    simp [this]

theorem stripL_head (l : List Char) (c : Char) (h : (stripL l).head? = some c) :
    isPySpace c = false := by
  have hpre : stripL l <+: List.dropWhile isPySpace l := List.rdropWhile_prefix _ _
  obtain ⟨t, ht⟩ := hpre
  obtain ⟨r, hr⟩ : ∃ r, stripL l = c :: r := by
    cases hsl : stripL l with
    | nil => rw [hsl] at h; simp at h
    | cons a r =>
      rw [hsl] at h
      simp only [List.head?_cons, Option.some.injEq] at h
      exact ⟨r, by rw [h]⟩
  have hdw : List.dropWhile isPySpace l = c :: (r ++ t) := by
    rw [← ht, hr]; rfl
  have hne : List.dropWhile isPySpace l ≠ [] := by rw [hdw]; simp
  have h1 : (List.dropWhile isPySpace l).head? = some c := by rw [hdw]; rfl
  rw [List.head?_eq_head hne] at h1
  have hc := Option.some.inj h1
  have := List.head_dropWhile_not isPySpace l hne
  rw [hc] at this
  exact this

theorem stripL_last (l : List Char) (c : Char) (h : (stripL l).getLast? = some c) :
    isPySpace c = false := by
  have hne : stripL l ≠ [] := by
    intro he
    rw [he] at h
    simp at h
  have := List.rdropWhile_last_not isPySpace (List.dropWhile isPySpace l) hne
  rw [List.getLast?_eq_getLast _ hne] at h
  simp only [Option.some.injEq] at h
  subst h
  simpa using this

theorem stripL_idem (l : List Char) : stripL (stripL l) = stripL l := by
  rw [stripL_eq_self_iff]
  exact ⟨stripL_head l, stripL_last l⟩

theorem pyStrip_data (s : String) : (pyStrip s).data = stripL s.data := rfl

theorem pyStrip_idem (s : String) : pyStrip (pyStrip s) = pyStrip s := by
  apply String.ext
  rw [pyStrip_data, pyStrip_data, stripL_idem]

theorem pyStrip_empty : pyStrip "" = "" := rfl

theorem pyStrip_eq_self_iff (s : String) :
    pyStrip s = s ↔
      ((∀ c, s.data.head? = some c → isPySpace c = false) ∧
       (∀ c, s.data.getLast? = some c → isPySpace c = false)) := by
  rw [← stripL_eq_self_iff]
  constructor
  · intro h
    have := congrArg String.data h
    rwa [pyStrip_data] at this
  · intro h
    apply String.ext
    rwa [pyStrip_data]

theorem String.data_ne_nil_iff (s : String) : s.data ≠ [] ↔ s ≠ "" := by
  constructor
  · intro h he
    subst he
    exact h rfl
  · intro h he
    exact h (String.ext he)

theorem joinNN_concat (l : List String) (x : String) (h : l ≠ []) :
    joinNN (l ++ [x]) = joinNN l ++ "\n\n" ++ x := by
  induction l with
  | nil => exact absurd rfl h
  | cons s r ih =>
    match r with
    | [] => rfl
    | t :: r2 =>
      show joinNN (s :: ((t :: r2) ++ [x])) = (s ++ "\n\n" ++ joinNN (t :: r2)) ++ "\n\n" ++ x
      have : joinNN (s :: ((t :: r2) ++ [x])) = s ++ "\n\n" ++ joinNN ((t :: r2) ++ [x]) := rfl
      rw [this, ih (by simp), ← String.append_assoc, ← String.append_assoc]

theorem joinNN_stripped (l : List String)
    (h : ∀ s ∈ l, pyStrip s = s ∧ s ≠ "") (hne : l ≠ []) :
    pyStrip (joinNN l) = joinNN l ∧ joinNN l ≠ "" := by
  induction l with
  | nil => exact absurd rfl hne
  | cons s r ih =>
    match r with
    | [] =>
      have := h s (by simp)
      exact ⟨this.1, this.2⟩
    | t :: r2 =>
      have hs := h s (by simp)
      have hJ := ih (fun u hu => h u (by simp [hu])) (by simp)
      have hJoin : joinNN (s :: t :: r2) = s ++ "\n\n" ++ joinNN (t :: r2) := rfl
      have hsne : s.data ≠ [] := (String.data_ne_nil_iff s).mpr hs.2
      have hJne : (joinNN (t :: r2)).data ≠ [] := (String.data_ne_nil_iff _).mpr hJ.2
      have hdata : (s ++ "\n\n" ++ joinNN (t :: r2)).data
          = s.data ++ (("\n\n" : String).data ++ (joinNN (t :: r2)).data) := by
        rw [String.data_append, String.data_append, List.append_assoc]
      have hJsome : (joinNN (t :: r2)).data.getLast?.isSome := by
        rw [List.getLast?_isSome]; exact hJne
      constructor
      · rw [hJoin, pyStrip_eq_self_iff]
        constructor
        · intro c hc
          rw [hdata, List.head?_append_of_ne_nil _ hsne] at hc
          exact ((pyStrip_eq_self_iff s).mp hs.1).1 c hc
        · intro c hc
          rw [hdata] at hc
          have hlast : (s.data ++ (("\n\n" : String).data ++ (joinNN (t :: r2)).data)).getLast?
              = (joinNN (t :: r2)).data.getLast? := by
            rw [List.getLast?_append, List.getLast?_append,
                Option.or_of_isSome hJsome, Option.or_of_isSome hJsome]
          rw [hlast] at hc
          exact ((pyStrip_eq_self_iff _).mp hJ.1).2 c hc
      · rw [hJoin]
        intro he
        have hx := congrArg String.data he
        rw [hdata] at hx
        have : s.data = [] := (List.append_eq_nil.mp hx).1
        exact hsne this

/-! ## Patch applier lemmas -/

theorem exceptMap_ok {ε α β : Type} (f : α → β) (x : Except ε α) (b : β)
    (h : x.map f = .ok b) : ∃ a, x = .ok a ∧ f a = b := by
  cases x with
  | error e => simp [Except.map] at h
  | ok a =>
    simp only [Except.map, Except.ok.injEq] at h
    exact ⟨a, rfl, h⟩

theorem applyToClause_ok_of_valid (patch : LegalPatch) (target : Clause)
    (ct : LegalPatchChangeType) (h : patch.change_type = .valid ct) :
    ∃ c2, LegalPatchApplier.applyToClause patch target = .ok c2 := by
  obtain ⟨tid, ctv, pt, rs⟩ := patch
  simp only at h
  subst h
  cases ct <;> exact ⟨_, rfl⟩

theorem applyToClause_other_eq (patch : LegalPatch) (target : Clause)
    (s : String) (h : patch.change_type = .other s) :
    LegalPatchApplier.applyToClause patch target
      = .error (.unsupportedOperation patch.change_type) := by
  obtain ⟨tid, ctv, pt, rs⟩ := patch
  simp only at h
  subst h
  rfl

/-- A successful `applyToClause` result is the input clause with only
`text`, `paragraphs` and the patch history rewritten. -/
theorem applyToClause_ok_shape (patch : LegalPatch) (target c2 : Clause)
    (h : LegalPatchApplier.applyToClause patch target = .ok c2) :
    ∃ ps, c2 = { target with
      text := renderText ps,
      metadata := { target.metadata with
                    paragraphs := some ps,
                    legal_patches := target.metadata.legal_patches ++ [_patch_dump patch] } } := by
  simp only [LegalPatchApplier.applyToClause] at h
  obtain ⟨ps, _, hc2⟩ := exceptMap_ok _ _ _ h
  exact ⟨ps, hc2.symm⟩

theorem applyToClause_id (patch : LegalPatch) (target c2 : Clause)
    (h : LegalPatchApplier.applyToClause patch target = .ok c2) :
    c2.id = target.id := by
  obtain ⟨ps, hps⟩ := applyToClause_ok_shape patch target c2 h
  rw [hps]

theorem applyToClause_textLaw (patch : LegalPatch) (target c2 : Clause)
    (h : LegalPatchApplier.applyToClause patch target = .ok c2) :
    textLaw c2 := by
  obtain ⟨ps, hps⟩ := applyToClause_ok_shape patch target c2 h
  rw [hps]
  simp [textLaw]

/-- Structural description of a successful `apply`: the list splits at the
first clause whose id matches, only that clause is rewritten. -/
theorem apply_ok_decomp (clauses : List Clause) (patch : LegalPatch) (out : List Clause)
    (h : LegalPatchApplier.apply clauses patch = .ok out) :
    ∃ pre target target2 post,
      clauses = pre ++ target :: post ∧
      out = pre ++ target2 :: post ∧
      (∀ c ∈ pre, c.id ≠ patch.target_clause_id) ∧
      target.id = patch.target_clause_id ∧
      LegalPatchApplier.applyToClause patch target = .ok target2 := by
  induction clauses generalizing out with
  | nil => simp [LegalPatchApplier.apply, LegalPatchApplier.applyToList] at h
  | cons c cs ih =>
    rw [LegalPatchApplier.apply, LegalPatchApplier.applyToList] at h
    by_cases hc : c.id = patch.target_clause_id
    · rw [if_pos hc] at h
      cases hac : LegalPatchApplier.applyToClause patch c with
      | error e => rw [hac] at h; simp [Except.map] at h
      | ok c2 =>
        rw [hac] at h
        simp only [Except.map, Except.ok.injEq] at h
        exact ⟨[], c, c2, cs, by simp, by simp [← h], by simp, hc, hac⟩
    · rw [if_neg hc] at h
      cases hal : LegalPatchApplier.applyToList cs patch with
      | error e => rw [hal] at h; simp [Except.map] at h
      | ok out2 =>
        rw [hal] at h
        simp only [Except.map, Except.ok.injEq] at h
        obtain ⟨pre, tg, tg2, post, h1, h2, h3, h4, h5⟩ := ih out2 hal
        refine ⟨c :: pre, tg, tg2, post, by simp [h1], by simp [← h, h2], ?_, h4, h5⟩
        rintro x hx
        rcases List.mem_cons.mp hx with rfl | hx2
        · exact hc
        · exact h3 x hx2

theorem apply_total_of_valid (clauses : List Clause) (patch : LegalPatch)
    (ct : LegalPatchChangeType) (hct : patch.change_type = .valid ct)
    (hex : ∃ c ∈ clauses, c.id = patch.target_clause_id) :
    ∃ out, LegalPatchApplier.apply clauses patch = .ok out := by
  induction clauses with
  | nil => simp at hex
  | cons c cs ih =>
    rw [LegalPatchApplier.apply, LegalPatchApplier.applyToList]
    by_cases hc : c.id = patch.target_clause_id
    · rw [if_pos hc]
      obtain ⟨c2, hc2⟩ := applyToClause_ok_of_valid patch c ct hct
      exact ⟨c2 :: cs, by rw [hc2]; rfl⟩
    · rw [if_neg hc]
      have hex2 : ∃ x ∈ cs, x.id = patch.target_clause_id := by
        obtain ⟨x, hx, hxid⟩ := hex
        rcases List.mem_cons.mp hx with rfl | hx2
        · exact absurd hxid hc
        · exact ⟨x, hx2, hxid⟩
      obtain ⟨out2, hout2⟩ := ih hex2
      exact ⟨c :: out2, by rw [show LegalPatchApplier.applyToList cs patch
        = .ok out2 from hout2]; rfl⟩

/-! ## Claim theorems: patch applier (C2, C4, C10, C3) -/

/-- C2: for every clause list and every patch whose target id matches some
clause, `apply` returns a list of the same length in which every clause
other than the (first) target is the unchanged input clause at the same
position.  The embedding is purely functional — `apply` builds its result
from value copies (`model_copy(deep=True)` in the source) — so the
caller's original list and its clause objects, in particular the original
target clause's `text`, are untouched by construction. -/
theorem C2_patch_frame (clauses : List Clause) (patch : LegalPatch) (out : List Clause)
    (hok : LegalPatchApplier.apply clauses patch = .ok out) :
    out.length = clauses.length ∧
    ∃ pre target target2 post,
      clauses = pre ++ target :: post ∧
      out = pre ++ target2 :: post ∧
      (∀ c ∈ pre, c.id ≠ patch.target_clause_id) ∧
      target.id = patch.target_clause_id ∧
      LegalPatchApplier.applyToClause patch target = .ok target2 := by
  obtain ⟨pre, tg, tg2, post, h1, h2, h3, h4, h5⟩ := apply_ok_decomp clauses patch out hok
  refine ⟨?_, pre, tg, tg2, post, h1, h2, h3, h4, h5⟩
  rw [h1, h2]
  simp

/-- Witness for C2 at a concrete clause list and patch. -/
theorem C2_patch_frame_witness :
    [c3exOut].length = [c3ex].length ∧
    ∃ pre target target2 post,
      [c3ex] = pre ++ target :: post ∧
      [c3exOut] = pre ++ target2 :: post ∧
      (∀ c ∈ pre, c.id ≠ p3ex.target_clause_id) ∧
      target.id = p3ex.target_clause_id ∧
      LegalPatchApplier.applyToClause p3ex target = .ok target2 :=
  C2_patch_frame [c3ex] p3ex [c3exOut] (by decide)

/-- C4: the applier fails with the distinguishable `targetNotFound` error
exactly when no clause in the input has the target id (this check runs
first, so it wins even when the change type is also invalid), and — when a
target exists — fails with the distinguishable `unsupportedOperation`
error exactly when the change type lies outside the five defined kinds.
Both errors are returned without producing any clause list, and the purely
functional embedding leaves the input list untouched. -/
theorem applyToClause_error_shape (patch : LegalPatch) (target : Clause)
    (e : PatchError) (h : LegalPatchApplier.applyToClause patch target = .error e) :
    e = .unsupportedOperation patch.change_type := by
  rcases hct : patch.change_type with ct | s
  · obtain ⟨c2, hc2⟩ := applyToClause_ok_of_valid patch target ct hct
    rw [hc2] at h
    exact absurd h (by simp)
  · rw [applyToClause_other_eq patch target s hct] at h
    have h2 := (Except.error.inj h).symm
    rw [hct] at h2
    exact h2

theorem apply_targetNotFound_iff (clauses : List Clause) (patch : LegalPatch) :
    LegalPatchApplier.apply clauses patch
        = .error (.targetNotFound patch.target_clause_id) ↔
      ∀ c ∈ clauses, c.id ≠ patch.target_clause_id := by
  induction clauses with
  | nil => simp [LegalPatchApplier.apply, LegalPatchApplier.applyToList]
  | cons c cs ih =>
    rw [LegalPatchApplier.apply, LegalPatchApplier.applyToList]
    by_cases hc : c.id = patch.target_clause_id
    · rw [if_pos hc]
      constructor
      · intro h
        cases hac : LegalPatchApplier.applyToClause patch c with
        | error e =>
          rw [hac] at h
          simp only [Except.map, Except.error.injEq] at h
          have := applyToClause_error_shape patch c e hac
          rw [this] at h
          exact absurd h.symm (by simp)
        | ok c2 => rw [hac] at h; simp [Except.map] at h
      · intro h
        exact absurd hc (h c (by simp))
    · rw [if_neg hc]
      cases hal : LegalPatchApplier.applyToList cs patch with
      | error e =>
        have heq : LegalPatchApplier.apply cs patch = .error e := hal
        constructor
        · intro h
          simp only [Except.map, Except.error.injEq] at h
          subst h
          intro x hx
          rcases List.mem_cons.mp hx with rfl | hx2
          · exact hc
          · exact (ih.mp (by rw [heq])) x hx2
        · intro h
          have := ih.mpr (fun x hx => h x (by simp [hx]))
          rw [heq] at this
          simp only [Except.error.injEq] at this
          rw [this]
          rfl
      | ok out2 =>
        have heq : LegalPatchApplier.apply cs patch = .ok out2 := hal
        constructor
        · intro h; simp [Except.map] at h
        · intro h
          have := ih.mpr (fun x hx => h x (by simp [hx]))
          rw [heq] at this
          exact absurd this (by simp)

theorem apply_unsupported_of_other (clauses : List Clause) (patch : LegalPatch)
    (s : String) (hct : patch.change_type = .other s)
    (hex : ∃ c ∈ clauses, c.id = patch.target_clause_id) :
    LegalPatchApplier.apply clauses patch
      = .error (.unsupportedOperation patch.change_type) := by
  induction clauses with
  | nil => simp at hex
  | cons c cs ih =>
    rw [LegalPatchApplier.apply, LegalPatchApplier.applyToList]
    by_cases hc : c.id = patch.target_clause_id
    · rw [if_pos hc, applyToClause_other_eq patch c s hct]
      rfl
    · rw [if_neg hc]
      have hex2 : ∃ x ∈ cs, x.id = patch.target_clause_id := by
        obtain ⟨x, hx, hxid⟩ := hex
        rcases List.mem_cons.mp hx with rfl | hx2
        · exact absurd hxid hc
        · exact ⟨x, hx2, hxid⟩
      have := ih hex2
      rw [LegalPatchApplier.apply] at this
      rw [this]
      rfl

/-- C4: the applier fails with the distinguishable `targetNotFound` error
exactly when no clause in the input has the target id (this check runs
first, so it wins even when the change type is also invalid), and — when a
target exists — fails with the distinguishable `unsupportedOperation`
error exactly when the change type lies outside the five defined kinds.
Both errors are surfaced immediately without producing any clause list,
and the purely functional embedding leaves the input list untouched. -/
theorem C4_error_conditions (clauses : List Clause) (patch : LegalPatch) :
    (LegalPatchApplier.apply clauses patch
        = .error (.targetNotFound patch.target_clause_id) ↔
      ∀ c ∈ clauses, c.id ≠ patch.target_clause_id) ∧
    ((∃ c ∈ clauses, c.id = patch.target_clause_id) →
      (LegalPatchApplier.apply clauses patch
          = .error (.unsupportedOperation patch.change_type) ↔
        ∃ s, patch.change_type = .other s)) := by
  refine ⟨apply_targetNotFound_iff clauses patch, fun hex => ⟨?_, ?_⟩⟩
  · intro h
    rcases hct : patch.change_type with ct | s
    · obtain ⟨out, hout⟩ := apply_total_of_valid clauses patch ct hct hex
      rw [hout] at h
      exact absurd h (by simp)
    · exact ⟨s, rfl⟩
  · rintro ⟨s, hct⟩
    exact apply_unsupported_of_other clauses patch s hct hex

/-- Witness for C4: a concrete out-of-enum change type on a present target
yields the `unsupportedOperation` error. -/
theorem C4_error_conditions_witness :
    LegalPatchApplier.apply [c3ex] pBogusEx
      = .error (.unsupportedOperation pBogusEx.change_type) :=
  ((C4_error_conditions [c3ex] pBogusEx).2
      ⟨c3ex, List.mem_singleton.mpr rfl, by decide⟩).mpr ⟨"bogus", rfl⟩

/-- C10: the applier never fails on the shape of the target's metadata.
With a valid change kind and an existing target, `apply` always succeeds;
an absent (or non-list) `paragraphs` entry behaves exactly like an empty
list (and the result stores an actual list); and for an empty paragraph
list any inserted paragraph carries the default formatting descriptor
`{bold: false, italic: false, alignment: null, style: null}`. -/
theorem C10_metadata_shape_safety :
    (∀ (clauses : List Clause) (patch : LegalPatch) (ct : LegalPatchChangeType),
      patch.change_type = .valid ct →
      (∃ c ∈ clauses, c.id = patch.target_clause_id) →
      ∃ out, LegalPatchApplier.apply clauses patch = .ok out) ∧
    (∀ (patch : LegalPatch) (target : Clause),
      target.metadata.paragraphs = none →
      LegalPatchApplier.applyToClause patch target =
        LegalPatchApplier.applyToClause patch
          { target with metadata := { target.metadata with paragraphs := some [] } }) ∧
    (∀ (patch : LegalPatch) (target : Clause) (ct : LegalPatchChangeType),
      patch.change_type = .valid ct →
      target.metadata.paragraphs = none →
      ∃ c2, LegalPatchApplier.applyToClause patch target = .ok c2 ∧
        c2.metadata.paragraphs =
          some (if ct = .delete then []
                else [⟨patch.proposed_text, some default_fmt⟩])) := by
  refine ⟨apply_total_of_valid, ?_, ?_⟩
  · intro patch target hnone
    obtain ⟨tid, ctv, pt, rs⟩ := patch
    obtain ⟨id0, oi, ttl, tx, ⟨hd, hf, ps, lp⟩, pid⟩ := target
    simp only at hnone
    subst hnone
    rcases ctv with ct | s
    · cases ct <;> rfl
    · rfl
  · intro patch target ct hct hnone
    obtain ⟨tid, ctv, pt, rs⟩ := patch
    obtain ⟨id0, oi, ttl, tx, ⟨hd, hf, ps, lp⟩, pid⟩ := target
    simp only at hct hnone
    subst hct
    subst hnone
    cases ct <;> exact ⟨_, rfl, rfl⟩

/-- Witness for C10 at a concrete clause with absent paragraphs. -/
theorem C10_metadata_shape_safety_witness :
    ∃ c2, LegalPatchApplier.applyToClause p10ex c10ex = .ok c2 ∧
      c2.metadata.paragraphs =
        some (if LegalPatchChangeType.append = .delete then []
              else [⟨p10ex.proposed_text, some default_fmt⟩]) :=
  C10_metadata_shape_safety.2.2 p10ex c10ex .append rfl rfl

/-- C3 counterexample: applying the same `replace` patch twice does not
yield the same final clause list as applying it once — the second
application appends a second record to the target's `legal_patches`
history, so the metadata differs. -/
theorem C3_counterexample :
    (LegalPatchApplier.apply [c3ex] p3ex >>= fun l => LegalPatchApplier.apply l p3ex)
      ≠ LegalPatchApplier.apply [c3ex] p3ex := by
  decide

theorem applyToClause_replace_twice (patch : LegalPatch) (target c2 c3 : Clause)
    (hct : patch.change_type = .valid .replace)
    (h1 : LegalPatchApplier.applyToClause patch target = .ok c2)
    (h2 : LegalPatchApplier.applyToClause patch c2 = .ok c3) :
    stripHistory c3 = stripHistory c2 := by
  obtain ⟨tid, ctv, pt, rs⟩ := patch
  simp only at hct
  subst hct
  simp only [LegalPatchApplier.applyToClause, Except.map, Except.ok.injEq] at h1
  subst h1
  simp only [LegalPatchApplier.applyToClause, Except.map, Except.ok.injEq] at h2
  subst h2
  simp [stripHistory]

/-- C3 (amended): `replace` applied twice with the same patch yields the
same final clause list state as applying it once, up to the applied-patch
history in `metadata["legal_patches"]`, which grows by one record per
application. -/
theorem C3_replace_idempotent_mod_history (clauses : List Clause) (patch : LegalPatch)
    (out1 out2 : List Clause) (hct : patch.change_type = .valid .replace)
    (h1 : LegalPatchApplier.apply clauses patch = .ok out1)
    (h2 : LegalPatchApplier.apply out1 patch = .ok out2) :
    out2.map stripHistory = out1.map stripHistory := by
  induction clauses generalizing out1 out2 with
  | nil => simp [LegalPatchApplier.apply, LegalPatchApplier.applyToList] at h1
  | cons c cs ih =>
    rw [LegalPatchApplier.apply, LegalPatchApplier.applyToList] at h1
    by_cases hc : c.id = patch.target_clause_id
    · rw [if_pos hc] at h1
      obtain ⟨c2, hc2, hfc2⟩ := exceptMap_ok _ _ _ h1
      subst hfc2
      have hid : c2.id = c.id := applyToClause_id patch c c2 hc2
      rw [LegalPatchApplier.apply, LegalPatchApplier.applyToList,
        if_pos (by rw [hid]; exact hc)] at h2
      obtain ⟨c3, hc3, hfc3⟩ := exceptMap_ok _ _ _ h2
      subst hfc3
      simp only [List.map_cons, List.cons.injEq]
      exact ⟨applyToClause_replace_twice patch c c2 c3 hct hc2 hc3, trivial⟩
    · rw [if_neg hc] at h1
      obtain ⟨out1x, hout1, hf⟩ := exceptMap_ok _ _ _ h1
      subst hf
      rw [LegalPatchApplier.apply, LegalPatchApplier.applyToList, if_neg hc] at h2
      obtain ⟨out2x, hout2, hf2⟩ := exceptMap_ok _ _ _ h2
      subst hf2
      simp only [List.map_cons, List.cons.injEq]
      exact ⟨trivial, ih out1x out2x hout1 hout2⟩

/-- Witness for the amended C3 at a concrete clause list and patch. -/
theorem C3_replace_idempotent_mod_history_witness :
    [c3exOut2].map stripHistory = [c3exOut].map stripHistory :=
  C3_replace_idempotent_mod_history [c3ex] p3ex [c3exOut] [c3exOut2]
    rfl (by decide) (by decide)

/-- C1 counterexample: a patch whose proposed text carries surrounding
whitespace produces a clause whose stored `text` differs from the claim's
literal derivation (paragraph texts joined with a blank line and trimmed,
with no per-paragraph trimming). -/
theorem C1_counterexample :
    LegalPatchApplier.apply [c1ex] p1ex = .ok [c1exOut] ∧
    c1exOut.text ≠ textJoinTrimmed (c1exOut.metadata.paragraphs.getD []) :=
  ⟨by decide, by decide⟩

theorem apply_textLaw (clauses : List Clause) (patch : LegalPatch) (out : List Clause)
    (h : LegalPatchApplier.apply clauses patch = .ok out) :
    ∀ c ∈ out, c ∈ clauses ∨ textLaw c := by
  obtain ⟨pre, tg, tg2, post, h1, h2, _, _, h5⟩ := apply_ok_decomp clauses patch out h
  subst h1
  subst h2
  intro c hc
  rcases List.mem_append.mp hc with hpre | htail
  · exact Or.inl (List.mem_append.mpr (Or.inl hpre))
  · rcases List.mem_cons.mp htail with rfl | hpost
    · exact Or.inr (applyToClause_textLaw patch tg c h5)
    · exact Or.inl (List.mem_append.mpr (Or.inr (List.mem_cons.mpr (Or.inr hpost))))

/-! ## Builder lemmas: list update and paragraph append -/

theorem getElem?_some_lt {α : Type} (l : List α) (i : Nat) (a : α)
    (h : l[i]? = some a) : i < l.length := by
  by_contra hlt
  rw [List.getElem?_eq_none (by omega)] at h
  exact absurd h (by simp)

theorem updateAt_length (l : List Clause) (i : Nat) (f : Clause → Clause) :
    (updateAt l i f).length = l.length := by
  induction l generalizing i with
  | nil => rfl
  | cons c cs ih =>
    cases i with
    | zero => rfl
    | succ i2 => simp [updateAt, ih i2]

theorem updateAt_getElem? (l : List Clause) (i : Nat) (f : Clause → Clause) (j : Nat) :
    (updateAt l i f)[j]? = if j = i then (l[i]?).map f else l[j]? := by
  induction l generalizing i j with
  | nil => simp [updateAt]
  | cons c cs ih =>
    cases i with
    | zero =>
      cases j with
      | zero => simp [updateAt]
      | succ j2 => simp [updateAt]
    | succ i2 =>
      cases j with
      | zero => simp [updateAt]
      | succ j2 => simpa [updateAt] using ih i2 j2

theorem updateAt_mem (l : List Clause) (i : Nat) (f : Clause → Clause) (c : Clause)
    (h : c ∈ updateAt l i f) : c ∈ l ∨ ∃ d ∈ l, c = f d := by
  induction l generalizing i with
  | nil => simp [updateAt] at h
  | cons c0 cs ih =>
    cases i with
    | zero =>
      rcases List.mem_cons.mp h with rfl | h2
      · exact Or.inr ⟨c0, by simp, rfl⟩
      · exact Or.inl (by simp [h2])
    | succ i2 =>
      rcases List.mem_cons.mp h with rfl | h2
      · exact Or.inl (by simp)
      · rcases ih i2 h2 with h3 | ⟨d, hd, hfd⟩
        · exact Or.inl (by simp [h3])
        · exact Or.inr ⟨d, by simp [hd], hfd⟩

theorem append_paragraph_id (c : Clause) (t : String) (f : Formatting) :
    (_append_paragraph c t f).id = c.id := rfl

theorem append_paragraph_parent (c : Clause) (t : String) (f : Formatting) :
    (_append_paragraph c t f).parent_id = c.parent_id := rfl

theorem append_paragraph_header (c : Clause) (t : String) (f : Formatting) :
    (_append_paragraph c t f).metadata.header = c.metadata.header := rfl

theorem new_clause_level (id : String) (title : Option String) (pid : Option String)
    (hdr : HeaderMatch) (hf : Option Formatting) :
    (_new_clause id title pid hdr hf).metadata.header.level = hdr.level := rfl

theorem new_clause_parent (id : String) (title : Option String) (pid : Option String)
    (hdr : HeaderMatch) (hf : Option Formatting) :
    (_new_clause id title pid hdr hf).parent_id = pid := rfl

/-! ## Builder lemmas: the text derivation law -/

theorem renderText_nil : renderText [] = "" := rfl

theorem renderText_strip (ps : List Paragraph) :
    pyStrip (renderText ps) = renderText ps :=
  pyStrip_idem _

theorem renderText_append_one (ps : List Paragraph) (t : String) (f : Option Formatting)
    (hps : ∀ q ∈ ps, pyStrip q.text = q.text ∧ q.text ≠ "") (hts : pyStrip t = t) :
    renderText (ps ++ [⟨t, f⟩]) =
      if ps = [] then t
      else pyStrip (renderText ps ++ "\n\n" ++ t) := by
  by_cases hne : ps = []
  · subst hne
    rw [if_pos rfl]
    simp only [renderText, List.nil_append, List.map_cons, List.map_nil]
    rw [show joinNN [pyStrip t] = pyStrip t from rfl, pyStrip_idem, hts]
  · rw [if_neg hne]
    have hmapne : ps.map (fun p => pyStrip p.text) ≠ [] := by
      simpa using hne
    have hstripped : ∀ s ∈ ps.map (fun p => pyStrip p.text), pyStrip s = s ∧ s ≠ "" := by
      intro s hs
      obtain ⟨q, hq, rfl⟩ := List.mem_map.mp hs
      refine ⟨pyStrip_idem _, ?_⟩
      rw [(hps q hq).1]
      exact (hps q hq).2
    have hJ := joinNN_stripped _ hstripped hmapne
    simp only [renderText, List.map_append, List.map_cons, List.map_nil]
    rw [joinNN_concat _ _ hmapne, hts, hJ.1]

theorem renderText_ne_empty (ps : List Paragraph) (hne : ps ≠ [])
    (hps : ∀ q ∈ ps, pyStrip q.text = q.text ∧ q.text ≠ "") :
    renderText ps ≠ "" := by
  have hmapne : ps.map (fun p => pyStrip p.text) ≠ [] := by simpa using hne
  have hstripped : ∀ s ∈ ps.map (fun p => pyStrip p.text), pyStrip s = s ∧ s ≠ "" := by
    intro s hs
    obtain ⟨q, hq, rfl⟩ := List.mem_map.mp hs
    refine ⟨pyStrip_idem _, ?_⟩
    rw [(hps q hq).1]
    exact (hps q hq).2
  have hJ := joinNN_stripped _ hstripped hmapne
  simp only [renderText]
  rw [hJ.1]
  exact hJ.2

theorem append_paragraph_textInv (c : Clause) (t : String) (f : Formatting)
    (hc : textInvClause c) (hts : pyStrip t = t) (htne : t ≠ "") :
    textInvClause (_append_paragraph c t f) := by
  obtain ⟨ps, hps, hstr, htext⟩ := hc
  refine ⟨ps ++ [⟨t, some f⟩], ?_, ?_, ?_⟩
  · simp only [_append_paragraph]
    rw [hps]
  · intro q hq
    rcases List.mem_append.mp hq with h1 | h2
    · exact hstr q h1
    · rcases List.mem_singleton.mp h2 with rfl
      exact ⟨hts, htne⟩
  · simp only [_append_paragraph]
    rw [htext, renderText_strip, renderText_append_one ps t (some f) hstr hts]
    by_cases hne : ps = []
    · subst hne
      rw [if_pos rfl, if_pos renderText_nil]
    · rw [if_neg hne, if_neg (renderText_ne_empty ps hne hstr)]

theorem new_clause_textInv (id : String) (title : Option String) (pid : Option String)
    (hdr : HeaderMatch) (hf : Option Formatting) :
    textInvClause (_new_clause id title pid hdr hf) :=
  ⟨[], rfl, by simp, rfl⟩

theorem parseStep_textInv (st : ParseState) (para : ParaIn)
    (h : clausesTextInv st.clauses) : clausesTextInv (parseStep st para).clauses := by
  rw [parseStep]
  by_cases hblank : pyStrip para.text = ""
  · rw [if_pos hblank]
    exact h
  · rw [if_neg hblank]
    have hts : pyStrip (pyStrip para.text) = pyStrip para.text := pyStrip_idem _
    cases hm : _match_header (pyStrip para.text) with
    | some header =>
      intro c hc
      rcases List.mem_append.mp hc with h1 | h2
      · exact h c h1
      · rcases List.mem_singleton.mp h2 with rfl
        exact new_clause_textInv _ _ _ _ _
    | none =>
      cases hst : st.stack with
      | cons e es =>
        intro c hc
        rcases updateAt_mem _ _ _ c hc with h1 | ⟨d, hd, rfl⟩
        · exact h c h1
        · exact append_paragraph_textInv d _ _ (h d hd) hts hblank
      | nil =>
        cases hpre : st.preamble with
        | some pidx =>
          intro c hc
          rcases updateAt_mem _ _ _ c hc with h1 | ⟨d, hd, rfl⟩
          · exact h c h1
          · exact append_paragraph_textInv d _ _ (h d hd) hts hblank
        | none =>
          intro c hc
          rcases updateAt_mem _ _ _ c hc with h1 | ⟨d, hd, rfl⟩
          · rcases List.mem_append.mp h1 with h3 | h4
            · exact h c h3
            · rcases List.mem_singleton.mp h4 with rfl
              exact new_clause_textInv _ _ _ _ _
          · rcases List.mem_append.mp hd with h3 | h4
            · exact append_paragraph_textInv d _ _ (h d h3) hts hblank
            · rcases List.mem_singleton.mp h4 with rfl
              exact append_paragraph_textInv _ _ _ (new_clause_textInv _ _ _ _ _) hts hblank

theorem foldl_textInv (paras : List ParaIn) (st : ParseState)
    (h : clausesTextInv st.clauses) :
    clausesTextInv (paras.foldl parseStep st).clauses := by
  induction paras generalizing st with
  | nil => exact h
  | cons p rest ih => exact ih _ (parseStep_textInv st p h)

theorem assignOrderIdx_mem (k : Nat) (l : List Clause) (c : Clause)
    (h : c ∈ assignOrderIdx k l) :
    ∃ d ∈ l, ∃ n, c = { d with order_index := n } := by
  induction l generalizing k with
  | nil => simp [assignOrderIdx] at h
  | cons d ds ih =>
    rcases List.mem_cons.mp h with rfl | h2
    · exact ⟨d, by simp, k, rfl⟩
    · obtain ⟨d2, hd2, n, hn⟩ := ih (k + 1) h2
      exact ⟨d2, by simp [hd2], n, hn⟩

theorem textInvClause_orderIdx (d : Clause) (n : Nat) (h : textInvClause d) :
    textInvClause { d with order_index := n } := by
  obtain ⟨ps, h1, h2, h3⟩ := h
  exact ⟨ps, h1, h2, h3⟩

theorem parse_document_textInv (paras : List ParaIn) :
    clausesTextInv (_parse_document paras) := by
  intro c hc
  obtain ⟨d, hd, n, rfl⟩ := assignOrderIdx_mem 0 _ c hc
  exact textInvClause_orderIdx d n
    (foldl_textInv paras ⟨[], [], none, 0⟩ (by intro x hx; simp at hx) d hd)

/-- C1 (amended): for every clause produced by the Clause Tree Builder and
for the clause updated by the Patch Applier, the stored `text` equals the
paragraph texts of `metadata["paragraphs"]` each trimmed individually,
joined with a blank-line separator, and trimmed overall (`renderText`);
since `text` is exactly that rendering, re-running the derivation yields
the stored `text` unchanged (idempotent derivation law). -/
theorem C1_text_derivation_law :
    (∀ (paras : List ParaIn), ∀ c ∈ _parse_document paras, textLaw c) ∧
    (∀ (clauses : List Clause) (patch : LegalPatch) (out : List Clause),
      LegalPatchApplier.apply clauses patch = .ok out →
      ∀ c ∈ out, c ∈ clauses ∨ textLaw c) := by
  constructor
  · intro paras c hc
    obtain ⟨ps, h1, h2, h3⟩ := parse_document_textInv paras c hc
    show c.text = renderText (c.metadata.paragraphs.getD [])
    rw [h1, h3]
    rfl
  · exact apply_textLaw

/-- Witness for C1 (amended) at a concrete patch application. -/
theorem C1_text_derivation_law_witness :
    c1exOut ∈ [c1ex] ∨ textLaw c1exOut :=
  C1_text_derivation_law.2 [c1ex] p1ex [c1exOut] (by decide) c1exOut (by decide)

/-! ## Builder lemmas: nesting invariant (C5) -/

theorem getElem?_append_left_eq {α : Type} (l l2 : List α) (i : Nat)
    (h : i < l.length) : (l ++ l2)[i]? = l[i]? := by
  rw [List.getElem?_append, if_pos h]

theorem parent_id_for_level_spec (cls : List Clause) (stack : List (Nat × Nat))
    (level : Nat)
    (hstack : ∀ e ∈ stack, ∃ c, cls[e.2]? = some c ∧ c.metadata.header.level = e.1)
    (pid : String) (h : _parent_id_for_level cls stack level = some pid) :
    ∃ i ci, i < cls.length ∧ cls[i]? = some ci ∧ ci.id = pid ∧
      ci.metadata.header.level < level := by
  rw [_parent_id_for_level] at h
  cases hfind : stack.find? (fun e => decide (e.1 < level)) with
  | none => rw [hfind] at h; exact absurd h (by simp)
  | some e0 =>
    rw [hfind] at h
    have h2 : Option.map Clause.id cls[e0.2]? = some pid := h
    cases hce : cls[e0.2]? with
    | none => rw [hce] at h2; exact absurd h2 (by simp)
    | some c0 =>
      rw [hce] at h2
      have h3 : c0.id = pid := Option.some.inj h2
      have he0 : e0 ∈ stack := List.mem_of_find?_eq_some hfind
      have hp : e0.1 < level := by simpa using List.find?_some hfind
      obtain ⟨c1, hc1, hl1⟩ := hstack e0 he0
      rw [hce] at hc1
      obtain rfl := Option.some.inj hc1
      exact ⟨e0.2, c0, getElem?_some_lt _ _ _ hce, hce, h3, by rw [hl1]; exact hp⟩

theorem parentInv_append (cls : List Clause) (newc : Clause) (h : parentInv cls)
    (hnew : ∀ pid, newc.parent_id = some pid →
      ∃ i ci, i < cls.length ∧ cls[i]? = some ci ∧ ci.id = pid ∧
        ci.metadata.header.level < newc.metadata.header.level) :
    parentInv (cls ++ [newc]) := by
  intro j c pid hj hpid
  by_cases hjlt : j < cls.length
  · rw [getElem?_append_left_eq _ _ _ hjlt] at hj
    obtain ⟨i, ci, hij, hi, hid, hlv⟩ := h j c pid hj hpid
    exact ⟨i, ci, hij,
      by rw [getElem?_append_left_eq _ _ _ (getElem?_some_lt _ _ _ hi)]; exact hi, hid, hlv⟩
  · have hj2 : j < cls.length + 1 := by
      have hlen := getElem?_some_lt _ _ _ hj
      simpa using hlen
    have hjeq : j = cls.length := by omega
    subst hjeq
    rw [List.getElem?_concat_length] at hj
    obtain rfl := Option.some.inj hj
    obtain ⟨i, ci, hilt, hi, hid, hlv⟩ := hnew pid hpid
    exact ⟨i, ci, hilt, by rw [getElem?_append_left_eq _ _ _ hilt]; exact hi, hid, hlv⟩

theorem parentInv_updateAt (cls : List Clause) (idx : Nat) (t : String) (fm : Formatting)
    (h : parentInv cls) :
    parentInv (updateAt cls idx (fun c => _append_paragraph c t fm)) := by
  intro j c pid hj hpid
  rw [updateAt_getElem?] at hj
  by_cases hji : j = idx
  · rw [if_pos hji] at hj
    cases hcl : cls[idx]? with
    | none => rw [hcl] at hj; exact absurd hj (by simp)
    | some d =>
      rw [hcl] at hj
      have hj2 : _append_paragraph d t fm = c := Option.some.inj hj
      have hpd : d.parent_id = some pid := by
        rw [← append_paragraph_parent d t fm, hj2]
        exact hpid
      subst hji
      obtain ⟨i, ci, hij, hi, hid, hlv⟩ := h j d pid (by rw [hcl]) hpd
      refine ⟨i, ci, hij, ?_, hid, ?_⟩
      · rw [updateAt_getElem?, if_neg (by omega)]
        exact hi
      · rw [← hj2, append_paragraph_header]
        exact hlv
  · rw [if_neg hji] at hj
    obtain ⟨i, ci, hij, hi, hid, hlv⟩ := h j c pid hj hpid
    by_cases hii : i = idx
    · subst hii
      refine ⟨i, _append_paragraph ci t fm, hij, ?_, ?_, ?_⟩
      · rw [updateAt_getElem?, if_pos rfl, hi]
        rfl
      · rw [append_paragraph_id]
        exact hid
      · rw [append_paragraph_header]
        exact hlv
    · exact ⟨i, ci, hij, by rw [updateAt_getElem?, if_neg hii]; exact hi, hid, hlv⟩

theorem stackEntries_updateAt (stack : List (Nat × Nat)) (cls : List Clause)
    (idx : Nat) (t : String) (fm : Formatting)
    (h : ∀ e ∈ stack, ∃ c, cls[e.2]? = some c ∧ c.metadata.header.level = e.1) :
    ∀ e ∈ stack, ∃ c,
      (updateAt cls idx (fun c => _append_paragraph c t fm))[e.2]? = some c ∧
      c.metadata.header.level = e.1 := by
  intro e he
  obtain ⟨c0, hc0, hl0⟩ := h e he
  by_cases hei : e.2 = idx
  · refine ⟨_append_paragraph c0 t fm, ?_, ?_⟩
    · have hc0b : cls[idx]? = some c0 := by rw [← hei]; exact hc0
      rw [updateAt_getElem?, if_pos hei, hc0b]
      rfl
    · rw [append_paragraph_header]
      exact hl0
  · exact ⟨c0, by rw [updateAt_getElem?, if_neg hei]; exact hc0, hl0⟩

theorem parseStep_builderInv (st : ParseState) (para : ParaIn)
    (h : builderInv st) : builderInv (parseStep st para) := by
  obtain ⟨hstack, hparent⟩ := h
  rw [parseStep]
  by_cases hblank : pyStrip para.text = ""
  · rw [if_pos hblank]
    exact ⟨hstack, hparent⟩
  · rw [if_neg hblank]
    cases hm : _match_header (pyStrip para.text) with
    | some header =>
      constructor
      · intro e he
        rcases List.mem_cons.mp he with rfl | he2
        · exact ⟨_, List.getElem?_concat_length _ _, new_clause_level _ _ _ _ _⟩
        · have he3 : e ∈ st.stack := (List.dropWhile_suffix _).subset he2
          obtain ⟨c0, hc0, hlvl⟩ := hstack e he3
          exact ⟨c0,
            by rw [getElem?_append_left_eq _ _ _ (getElem?_some_lt _ _ _ hc0)]; exact hc0,
            hlvl⟩
      · refine parentInv_append _ _ hparent ?_
        intro pid hpid
        rw [new_clause_parent] at hpid
        obtain ⟨i, ci, hilt, hi, hid, hlv⟩ :=
          parent_id_for_level_spec st.clauses st.stack header.level hstack pid hpid
        exact ⟨i, ci, hilt, hi, hid, by rw [new_clause_level]; exact hlv⟩
    | none =>
      cases hst : st.stack with
      | cons e es =>
        constructor
        · intro e2 he2
          have he2b : e2 ∈ st.stack := by rw [hst]; exact he2
          exact stackEntries_updateAt st.stack st.clauses e.2 _ _ hstack e2 he2b
        · exact parentInv_updateAt _ _ _ _ hparent
      | nil =>
        cases hpre : st.preamble with
        | some pidx =>
          constructor
          · intro e2 he2
            exact absurd (show e2 ∈ ([] : List (Nat × Nat)) from he2) (by simp)
          · exact parentInv_updateAt _ _ _ _ hparent
        | none =>
          constructor
          · intro e2 he2
            exact absurd (show e2 ∈ ([] : List (Nat × Nat)) from he2) (by simp)
          · refine parentInv_updateAt _ _ _ _ ?_
            refine parentInv_append _ _ hparent ?_
            intro pid hpid
            rw [new_clause_parent] at hpid
            exact absurd hpid (by simp)

theorem foldl_builderInv (paras : List ParaIn) (st : ParseState)
    (h : builderInv st) : builderInv (paras.foldl parseStep st) := by
  induction paras generalizing st with
  | nil => exact h
  | cons p rest ih => exact ih _ (parseStep_builderInv st p h)

theorem assignOrderIdx_getElem? (k : Nat) (l : List Clause) (i : Nat) :
    (assignOrderIdx k l)[i]? = (l[i]?).map (fun d => { d with order_index := k + i }) := by
  induction l generalizing k i with
  | nil => simp [assignOrderIdx]
  | cons d ds ih =>
    cases i with
    | zero => simp [assignOrderIdx]
    | succ i2 =>
      have hstep : (assignOrderIdx k (d :: ds))[i2 + 1]? = (assignOrderIdx (k + 1) ds)[i2]? := by
        rw [show assignOrderIdx k (d :: ds)
            = { d with order_index := k } :: assignOrderIdx (k + 1) ds from rfl,
          List.getElem?_cons_succ]
      rw [hstep, ih (k + 1) i2, List.getElem?_cons_succ]
      have harith : k + 1 + i2 = k + (i2 + 1) := by omega
      rw [harith]

theorem parentInv_assignOrderIdx (l : List Clause) (k : Nat) (h : parentInv l) :
    parentInv (assignOrderIdx k l) := by
  intro j c pid hj hpid
  rw [assignOrderIdx_getElem?] at hj
  cases hcl : l[j]? with
  | none => rw [hcl] at hj; exact absurd hj (by simp)
  | some d =>
    rw [hcl] at hj
    have hj2 : { d with order_index := k + j } = c := Option.some.inj hj
    have hpd : d.parent_id = some pid := by rw [← hj2] at hpid; exact hpid
    obtain ⟨i, ci, hij, hi, hid, hlv⟩ := h j d pid hcl hpd
    refine ⟨i, { ci with order_index := k + i }, hij, ?_, hid, ?_⟩
    · rw [assignOrderIdx_getElem?, hi]
      rfl
    · rw [← hj2]
      exact hlv

/-- C5: in every clause list produced by the Clause Tree Builder, a clause
with non-null `parent_id` is preceded (strictly earlier in the list) by a
clause carrying that id whose recorded header level is strictly smaller. -/
theorem C5_nesting_invariant (paras : List ParaIn) (j : Nat) (c : Clause) (pid : String)
    (hj : (_parse_document paras)[j]? = some c) (hp : c.parent_id = some pid) :
    ∃ i ci, i < j ∧ (_parse_document paras)[i]? = some ci ∧ ci.id = pid ∧
      ci.metadata.header.level < c.metadata.header.level := by
  have hbase : builderInv (⟨[], [], none, 0⟩ : ParseState) := by
    constructor
    · intro e he
      exact absurd he (by simp)
    · intro j2 c2 pid2 hj2 hp2
      exact absurd hj2 (by simp)
  have hinv := foldl_builderInv paras ⟨[], [], none, 0⟩ hbase
  have hfin : parentInv (_parse_document paras) := by
    rw [_parse_document]
    exact parentInv_assignOrderIdx _ 0 hinv.2
  exact hfin j c pid hj hp

/-- Witness for C5 at a concrete two-line document. -/
theorem C5_nesting_invariant_witness :
    ∃ i ci, i < 1 ∧ (_parse_document c5paras)[i]? = some ci ∧ ci.id = "uuid-0" ∧
      ci.metadata.header.level < c5child.metadata.header.level :=
  C5_nesting_invariant c5paras 1 c5child "uuid-0" (by decide) (by decide)

/-! ## Builder lemmas: clause counting (C7) -/

theorem countHeaders_cons (p : ParaIn) (rest : List ParaIn) :
    countHeaders (p :: rest) = countHeaders rest + (if isHeaderLine p.text then 1 else 0) :=
  List.countP_cons _ _ _

theorem hasLeadingBody_cons (p : ParaIn) (rest : List ParaIn) :
    hasLeadingBody (p :: rest) =
      if isHeaderLine p.text then false
      else (isContentLine p.text || hasLeadingBody rest) := by
  rw [hasLeadingBody, List.takeWhile_cons]
  cases h : isHeaderLine p.text with
  | true => simp [h]
  | false =>
    simp only [h, Bool.not_false, if_true, List.any_cons, if_false]
    rfl

theorem foldl_length (paras : List ParaIn) (st : ParseState) :
    (paras.foldl parseStep st).clauses.length =
      st.clauses.length + countHeaders paras + preambleExtra st paras := by
  induction paras generalizing st with
  | nil =>
    simp [countHeaders, preambleExtra, hasLeadingBody]
  | cons p rest ih =>
    rw [List.foldl_cons, ih (parseStep st p)]
    by_cases hblank : pyStrip p.text = ""
    · have hps : parseStep st p = st := by
        rw [parseStep, if_pos hblank]
      have hcontent : isContentLine p.text = false := by
        simp [isContentLine, hblank]
      have hhead : isHeaderLine p.text = false := by
        simp [isHeaderLine, hcontent]
      rw [hps, countHeaders_cons]
      have hext : preambleExtra st (p :: rest) = preambleExtra st rest := by
        rw [preambleExtra, preambleExtra, hasLeadingBody_cons, hhead, hcontent]
        simp
      rw [hext, hhead]
      simp
    · have hcontent : isContentLine p.text = true := by
        simp [isContentLine, hblank]
      cases hm : _match_header (pyStrip p.text) with
      | some hd =>
        have hhead : isHeaderLine p.text = true := by
          simp [isHeaderLine, hcontent, hm]
        have hps : parseStep st p =
            { clauses := st.clauses ++
                [_new_clause (genId st.nextId) (some (_normalize_header_title (pyStrip p.text)))
                  (_parent_id_for_level st.clauses st.stack hd.level) hd (some p.formatting)],
              stack := (hd.level, st.clauses.length) ::
                st.stack.dropWhile (fun e => hd.level ≤ e.1),
              preamble := st.preamble,
              nextId := st.nextId + 1 } := by
          rw [parseStep, if_neg hblank, hm]
        have hext1 : preambleExtra st (p :: rest) = 0 := by
          rw [preambleExtra, hasLeadingBody_cons, hhead]
          simp
        have hext2 : preambleExtra (parseStep st p) rest = 0 := by
          rw [hps, preambleExtra]
          simp
        rw [hext1, hext2, countHeaders_cons, hhead, hps]
        simp only [List.length_append, List.length_cons, List.length_nil, if_true]
        omega
      | none =>
        have hhead : isHeaderLine p.text = false := by
          simp [isHeaderLine, hm]
        have hcount : countHeaders (p :: rest) = countHeaders rest := by
          rw [countHeaders_cons, hhead]
          simp
        have hlb : hasLeadingBody (p :: rest) = true := by
          rw [hasLeadingBody_cons, hhead, hcontent]
          simp
        cases hst : st.stack with
        | cons e es =>
          have hps : parseStep st p = { st with clauses :=
              (updateAt st.clauses e.2 (fun c => _append_paragraph c (pyStrip p.text) p.formatting)) } := by
            rw [parseStep, if_neg hblank, hm, hst]
          have hext1 : preambleExtra st (p :: rest) = 0 := by
            rw [preambleExtra, hst]
            simp
          have hext2 : preambleExtra (parseStep st p) rest = 0 := by
            rw [hps, preambleExtra]
            simp only [hst]
            simp
          rw [hext1, hext2, hcount, hps]
          simp only [updateAt_length]
        | nil =>
          cases hpre : st.preamble with
          | some pidx =>
            have hps : parseStep st p = { st with clauses :=
                (updateAt st.clauses pidx (fun c => _append_paragraph c (pyStrip p.text) p.formatting)) } := by
              rw [parseStep, if_neg hblank, hm, hst, hpre]
            have hext1 : preambleExtra st (p :: rest) = 0 := by
              rw [preambleExtra, hpre]
              simp
            have hext2 : preambleExtra (parseStep st p) rest = 0 := by
              rw [hps, preambleExtra]
              simp only [hpre]
              simp
            rw [hext1, hext2, hcount, hps]
            simp only [updateAt_length]
          | none =>
            have hps : parseStep st p =
                { clauses := updateAt
                    (st.clauses ++ [_new_clause (genId st.nextId) (some "Preamble") none
                      preambleHeader none]) st.clauses.length
                    (fun c => _append_paragraph c (pyStrip p.text) p.formatting),
                  stack := st.stack,
                  preamble := some st.clauses.length,
                  nextId := st.nextId + 1 } := by
              rw [parseStep, if_neg hblank, hm, hst, hpre]
            have hext1 : preambleExtra st (p :: rest) = 1 := by
              rw [preambleExtra, hst, hpre, hlb]
              simp
            have hext2 : preambleExtra (parseStep st p) rest = 0 := by
              rw [hps, preambleExtra]
              simp
            rw [hext1, hext2, hcount, hps]
            simp only [updateAt_length, List.length_append, List.length_cons, List.length_nil]
            omega

theorem assignOrderIdx_length (k : Nat) (l : List Clause) :
    (assignOrderIdx k l).length = l.length := by
  induction l generalizing k with
  | nil => rfl
  | cons d ds ih => simp [assignOrderIdx, ih]

/-- C7: the number of clauses the Clause Tree Builder returns equals the
number of lines recognized as headers, plus one exactly when some
non-blank non-header line occurs before the first recognized header (that
extra clause being the single Preamble clause). -/
theorem C7_clause_count (paras : List ParaIn) :
    (_parse_document paras).length =
      countHeaders paras + (if hasLeadingBody paras then 1 else 0) := by
  rw [_parse_document]
  rw [assignOrderIdx_length, foldl_length paras ⟨[], [], none, 0⟩]
  rw [preambleExtra]
  simp

/-! ## Reference extractor lemmas (C8, C9) -/

theorem foldl_append_eq_flatMap {α β : Type} (f : α → List β) (l : List α) (init : List β) :
    l.foldl (fun acc c => acc ++ f c) init = init ++ l.flatMap f := by
  induction l generalizing init with
  | nil => simp
  | cons c cs ih =>
    rw [List.foldl_cons, ih (init ++ f c), List.flatMap_cons, List.append_assoc]

theorem dictGet_pair_mem (pairs : List (String × String)) (k v : String)
    (h : dictGet pairs k = some v) : ∃ e ∈ pairs, e.1 = k ∧ e.2 = v := by
  rw [dictGet] at h
  cases hf : pairs.reverse.find? (fun e => e.1 = k) with
  | none => rw [hf] at h; exact absurd h (by simp)
  | some e =>
    rw [hf] at h
    refine ⟨e, ?_, by simpa using List.find?_some hf, Option.some.inj h⟩
    have := List.mem_of_find?_eq_some hf
    exact List.mem_reverse.mp this

theorem dictGet_resolves (clauses : List Clause) (k tid : String)
    (h : dictGet (key_to_id_pairs clauses) k = some tid) :
    ∃ c ∈ clauses, c.id = tid := by
  obtain ⟨e, he, _, hev⟩ := dictGet_pair_mem _ k tid h
  rw [key_to_id_pairs] at he
  obtain ⟨c, hc, hfc⟩ := List.mem_filterMap.mp he
  cases hck : clauseKey c with
  | none => rw [hck] at hfc; exact absurd hfc (by simp)
  | some k2 =>
    rw [hck] at hfc
    have he2 : (k2, c.id) = e := Option.some.inj hfc
    refine ⟨c, hc, ?_⟩
    rw [← hev, ← he2]

/-- C8: the Reference Extractor outputs one reference per body-text
mention that resolves through the title-derived lookup, silently dropping
exactly the self-references and the unresolved mentions, in clause-list
order then in-text match order, without deduplication — provided every
clause id is non-empty (the code also drops a mention resolving to a
falsy/empty id, a case the builder never produces). -/
theorem flatMap_congr_mem {α β : Type} (l : List α) (f g : α → List β)
    (h : ∀ a ∈ l, f a = g a) : l.flatMap f = l.flatMap g := by
  induction l with
  | nil => rfl
  | cons a as ih =>
    rw [List.flatMap_cons, List.flatMap_cons, h a (by simp), ih (fun x hx => h x (by simp [hx]))]

theorem C8_reference_extraction (clauses : List Clause)
    (hids : ∀ c ∈ clauses, c.id ≠ "") :
    extract_references clauses = referencesSpec clauses := by
  rw [extract_references, referencesSpec, foldl_append_eq_flatMap, List.nil_append]
  apply flatMap_congr_mem
  intro c _
  have hfn : ∀ ref_key : String,
      (match dictGet (key_to_id_pairs clauses) ref_key with
       | none => none
       | some target_id =>
         if target_id = "" ∨ target_id = c.id then none
         else some (Reference.mk c.id target_id ref_key))
      = (match dictGet (key_to_id_pairs clauses) ref_key with
       | none => none
       | some dst => if dst = c.id then none
                     else some (Reference.mk c.id dst ref_key)) := by
    intro ref_key
    cases hd : dictGet (key_to_id_pairs clauses) ref_key with
    | none => rfl
    | some tid =>
      obtain ⟨c2, hc2, hcid⟩ := dictGet_resolves clauses ref_key tid hd
      have htne : tid ≠ "" := by rw [← hcid]; exact hids c2 hc2
      simp [htne]
  exact congrArg (fun fn => List.filterMap fn (_find_reference_keys c.text)) (funext hfn)

/-- C8 counterexample: a clause list containing a clause whose id is the
empty string.  The mention "Article 1" resolves through the lookup to that
id and is not a self-reference, yet `extract_references` silently drops it
(`if not target_id` treats the empty id as falsy), so the drops are not
exactly the self-references and the unresolved mentions. -/
theorem C8_counterexample :
    extract_references [c8e, c8m] = [] ∧
    referencesSpec [c8e, c8m] = [⟨"m", "", "article 1"⟩] :=
  ⟨by decide, by decide⟩

/-- Witness for C8 at a concrete clause list with duplicate titles. -/
theorem C8_reference_extraction_witness :
    extract_references [c9a, c9b, c9c] = referencesSpec [c9a, c9b, c9c] :=
  C8_reference_extraction [c9a, c9b, c9c] (by decide)

theorem dictGet_append_one (pairs : List (String × String)) (e : String × String)
    (k : String) :
    dictGet (pairs ++ [e]) k = if e.1 = k then some e.2 else dictGet pairs k := by
  by_cases he : e.1 = k
  · rw [if_pos he, dictGet, List.reverse_append, List.reverse_singleton,
      List.singleton_append, List.find?_cons]
    simp [he]
  · rw [if_neg he, dictGet, dictGet, List.reverse_append, List.reverse_singleton,
      List.singleton_append, List.find?_cons]
    simp [he]

/-- The lookup built by `extract_references` maps a key to the id of the
last clause (in list order) whose title normalizes to that key. -/
theorem dictGet_last_wins (clauses : List Clause) (k : String) :
    dictGet (key_to_id_pairs clauses) k =
      ((clauses.filter (fun c => clauseKey c = some k)).getLast?).map Clause.id := by
  induction clauses using List.reverseRecOn with
  | nil => rfl
  | append_singleton cs c ih =>
    rw [key_to_id_pairs, List.filterMap_append, List.filter_append]
    have hpairs : key_to_id_pairs cs = cs.filterMap
        (fun c => (clauseKey c).map (fun k2 => (k2, c.id))) := rfl
    cases hck : clauseKey c with
    | none =>
      have h1 : List.filterMap (fun c => (clauseKey c).map (fun k2 => (k2, c.id))) [c] = [] := by
        simp [hck]
      have h2 : List.filter (fun c => clauseKey c = some k) [c] = [] := by
        simp [hck]
      rw [h1, h2, List.append_nil, List.append_nil, ← hpairs, ih]
    | some k2 =>
      have h1 : List.filterMap (fun c => (clauseKey c).map (fun k2 => (k2, c.id))) [c]
          = [(k2, c.id)] := by
        simp [hck]
      rw [h1, ← hpairs, dictGet_append_one]
      by_cases hkk : k2 = k
      · subst hkk
        have h2 : List.filter (fun c => clauseKey c = some k2) [c] = [c] := by
          simp [hck]
        rw [h2, if_pos rfl, List.getLast?_concat]
        rfl
      · have h2 : List.filter (fun c => clauseKey c = some k) [c] = [] := by
          simp [hck, hkk]
        rw [h2, if_neg hkk, List.append_nil, ih]

/-- C9: when several clauses share a normalized title key, the
lookup-building pass overwrites earlier entries, so every mention of that
key resolves to the id of the last such clause in list order — shown in
general for the lookup, and end-to-end on a concrete document with two
clauses titled "Article 1". -/
theorem C9_duplicate_titles_last_wins :
    (∀ (clauses : List Clause) (k : String),
      dictGet (key_to_id_pairs clauses) k =
        ((clauses.filter (fun c => clauseKey c = some k)).getLast?).map Clause.id) ∧
    extract_references [c9a, c9b, c9c] = [⟨"idC", "idB", "article 1"⟩] :=
  ⟨dictGet_last_wins, by decide⟩

/-! ## Header matcher lemmas (C6): character classes and keyword matching -/

theorem roman_not_digit (c : Char) (h : isRomanChar c = true) : c.isDigit = false := by
  simp only [isRomanChar, Bool.or_eq_true, decide_eq_true_eq] at h
  rcases h with ((((((((h | h) | h) | h) | h) | h) | h) | h) | h) | h <;> subst h <;> decide

theorem digit_not_space (c : Char) (h : c.isDigit = true) : isPySpace c = false := by
  cases hs : isPySpace c with
  | false => rfl
  | true =>
    simp only [isPySpace, Bool.or_eq_true, decide_eq_true_eq] at hs
    rcases hs with ((((hs | hs) | hs) | hs) | hs) | hs <;> subst hs <;> exact absurd h (by decide)

theorem roman_not_space (c : Char) (h : isRomanChar c = true) : isPySpace c = false := by
  simp only [isRomanChar, Bool.or_eq_true, decide_eq_true_eq] at h
  rcases h with ((((((((h | h) | h) | h) | h) | h) | h) | h) | h) | h <;> subst h <;> decide

theorem digit_not_dot (c : Char) (h : c.isDigit = true) : c ≠ '.' := by
  intro he
  subst he
  exact absurd h (by decide)

theorem matchKeywordCI_exact (kw : List Char) :
    ∀ (pre rest : List Char), pre.map Char.toLower = kw →
      matchKeywordCI kw (pre ++ rest) = some rest := by
  induction kw with
  | nil =>
    intro pre rest hpre
    have : pre = [] := by
      cases pre with
      | nil => rfl
      | cons a l => simp at hpre
    subst this
    rfl
  | cons k ks ih =>
    intro pre rest hpre
    cases pre with
    | nil => simp at hpre
    | cons c pre2 =>
      simp only [List.map_cons, List.cons.injEq] at hpre
      rw [List.cons_append, matchKeywordCI, if_pos hpre.1]
      exact ih pre2 rest hpre.2

theorem matchKeywordCI_decomp (kw : List Char) :
    ∀ (l r : List Char), matchKeywordCI kw l = some r →
      ∃ pre, l = pre ++ r ∧ pre.map Char.toLower = kw := by
  induction kw with
  | nil =>
    intro l r h
    exact ⟨[], by simpa using Option.some.inj h, rfl⟩
  | cons k ks ih =>
    intro l r h
    cases l with
    | nil => exact absurd h (by simp [matchKeywordCI])
    | cons c cs =>
      rw [matchKeywordCI] at h
      by_cases hc : c.toLower = k
      · rw [if_pos hc] at h
        obtain ⟨pre, hpre, hmap⟩ := ih cs r h
        exact ⟨c :: pre, by simp [hpre], by simp [hmap, hc]⟩
      · rw [if_neg hc] at h
        exact absurd h (by simp)

theorem takeWhile_all_append {α : Type} (p : α → Bool) (a b : List α)
    (h : ∀ c ∈ a, p c = true) : (a ++ b).takeWhile p = a ++ b.takeWhile p := by
  induction a with
  | nil => simp
  | cons x xs ih =>
    rw [List.cons_append, List.takeWhile_cons, h x (by simp),
      ih (fun c hc => h c (by simp [hc]))]
    simp

theorem dropWhile_all_append {α : Type} (p : α → Bool) (a b : List α)
    (h : ∀ c ∈ a, p c = true) : (a ++ b).dropWhile p = b.dropWhile p := by
  induction a with
  | nil => simp
  | cons x xs ih =>
    rw [List.cons_append, List.dropWhile_cons, h x (by simp)]
    exact ih (fun c hc => h c (by simp [hc]))

theorem dottedNum_eq_intercalate (d1 : List Char) (gs : List (List Char)) :
    dottedNum d1 gs = List.intercalate ['.'] (d1 :: gs) := by
  induction gs generalizing d1 with
  | nil => simp [dottedNum, List.intercalate, List.intersperse]
  | cons g rest ih =>
    rw [dottedNum, List.flatMap_cons,
      show List.intercalate ['.'] (d1 :: g :: rest)
        = d1 ++ ['.'] ++ List.intercalate ['.'] (g :: rest) by
          simp [List.intercalate, List.intersperse],
      ← ih g]
    rw [dottedNum]
    simp

theorem dottedNum_chars (d1 : List Char) (gs : List (List Char))
    (h1 : ∀ c ∈ d1, (c.isDigit || c = '.') = true)
    (h2 : ∀ g ∈ gs, ∀ c ∈ g, (c.isDigit || c = '.') = true) :
    ∀ c ∈ dottedNum d1 gs, (c.isDigit || c = '.') = true := by
  intro c hc
  rw [dottedNum] at hc
  rcases List.mem_append.mp hc with hd | hg
  · exact h1 c hd
  · obtain ⟨g, hgmem, hcg⟩ := List.mem_flatMap.mp hg
    rcases List.mem_cons.mp hcg with rfl | hcg2
    · simp
    · exact h2 g hgmem c hcg2

theorem mem_intercalate_dot (gs : List (List Char)) (g : List Char) (hg : g ∈ gs)
    (c : Char) (hc : c ∈ g) : c ∈ List.intercalate ['.'] gs := by
  induction gs with
  | nil => exact absurd hg (by simp)
  | cons g0 rest ih =>
    cases rest with
    | nil =>
      rcases List.mem_cons.mp hg with rfl | h2
      · simpa [List.intercalate, List.intersperse] using hc
      · exact absurd h2 (by simp)
    | cons g1 rest2 =>
      rw [show List.intercalate ['.'] (g0 :: g1 :: rest2)
          = g0 ++ ['.'] ++ List.intercalate ['.'] (g1 :: rest2) by
            simp [List.intercalate, List.intersperse]]
      rcases List.mem_cons.mp hg with rfl | h2
      · simp [hc]
      · simp [ih h2]

/-! ## Header matcher lemmas (C6): number parsers on canonical inputs -/

theorem parseArticleNum_digits (ds : List Char) (hne : ds ≠ [])
    (hd : ∀ c ∈ ds, c.isDigit = true) : parseArticleNum ds = some (ds, []) := by
  cases ds with
  | nil => exact absurd rfl hne
  | cons c cs =>
    have hc : c.isDigit = true := hd c (by simp)
    have ht : (c :: cs).takeWhile Char.isDigit = c :: cs := List.takeWhile_eq_self_iff.mpr hd
    have hw : (c :: cs).dropWhile Char.isDigit = [] := List.dropWhile_eq_nil_iff.mpr hd
    simp only [parseArticleNum, hc, if_true, ht, hw]
    rfl

theorem parseArticleNum_roman (rs : List Char) (hne : rs ≠ [])
    (hr : ∀ c ∈ rs, isRomanChar c = true) : parseArticleNum rs = some (rs, []) := by
  cases rs with
  | nil => exact absurd rfl hne
  | cons c cs =>
    have hc : isRomanChar c = true := hr c (by simp)
    have hcd : c.isDigit = false := roman_not_digit c hc
    have ht : (c :: cs).takeWhile isRomanChar = c :: cs := List.takeWhile_eq_self_iff.mpr hr
    have hw : (c :: cs).dropWhile isRomanChar = [] := List.dropWhile_eq_nil_iff.mpr hr
    simp only [parseArticleNum, hcd, Bool.false_eq_true, if_false, hc, if_true, ht, hw]
    rfl

theorem takeDotGroups_dotted (gs : List (List Char))
    (hgs : ∀ g ∈ gs, g ≠ [] ∧ ∀ c ∈ g, c.isDigit = true) :
    takeDotGroups (gs.flatMap (fun g => '.' :: g)) = (gs, []) := by
  cases gs with
  | nil => rfl
  | cons g rest =>
    have hchars : ∀ c ∈ (g :: rest).flatMap (fun g => '.' :: g),
        (c.isDigit || c = '.') = true := by
      intro c hc
      obtain ⟨g2, hg2, hcg⟩ := List.mem_flatMap.mp hc
      rcases List.mem_cons.mp hcg with rfl | hcg2
      · simp
      · simp [(hgs g2 hg2).2 c hcg2]
    have hrun : ((g :: rest).flatMap (fun g => '.' :: g)).takeWhile
        (fun c => c.isDigit || c = '.') = (g :: rest).flatMap (fun g => '.' :: g) :=
      List.takeWhile_eq_self_iff.mpr hchars
    have hinter : (g :: rest).flatMap (fun g => '.' :: g)
        = List.intercalate ['.'] ([] :: g :: rest) := by
      rw [show List.intercalate ['.'] (([] : List Char) :: g :: rest)
          = [] ++ ['.'] ++ List.intercalate ['.'] (g :: rest) by
            simp [List.intercalate, List.intersperse]]
      rw [← dottedNum_eq_intercalate g rest]
      rw [List.flatMap_cons, dottedNum]
      simp
    have hsplit : List.splitOn '.' ((g :: rest).flatMap (fun g => '.' :: g))
        = [] :: g :: rest := by
      rw [hinter]
      refine List.splitOn_intercalate _ '.' ?_ (by simp)
      intro l hl
      rcases List.mem_cons.mp hl with rfl | hl2
      · simp
      · intro hdot
        exact digit_not_dot '.' ((hgs l hl2).2 '.' hdot) rfl
    have htk : List.takeWhile (fun g => decide (g ≠ [])) (g :: rest) = g :: rest := by
      rw [List.takeWhile_eq_self_iff]
      intro x hx
      simp [(hgs x hx).1]
    rw [takeDotGroups, hrun, hsplit]
    show (let gs := List.takeWhile (fun g => decide (g ≠ [])) (g :: rest)
        let consumed := gs.flatMap fun g => '.' :: g
        (gs, List.drop consumed.length ((g :: rest).flatMap fun g => '.' :: g)))
      = (g :: rest, [])
    simp only [htk, List.drop_length]

theorem flatMap_dot_takeWhile_digits (gs : List (List Char)) :
    (gs.flatMap (fun g => '.' :: g)).takeWhile Char.isDigit = [] := by
  cases gs with
  | nil => rfl
  | cons g rest =>
    rw [List.flatMap_cons, List.cons_append, List.takeWhile_cons]
    simp

theorem flatMap_dot_dropWhile_digits (gs : List (List Char)) :
    (gs.flatMap (fun g => '.' :: g)).dropWhile Char.isDigit
      = gs.flatMap (fun g => '.' :: g) := by
  cases gs with
  | nil => rfl
  | cons g rest =>
    rw [List.flatMap_cons, List.cons_append, List.dropWhile_cons]
    simp

theorem parseSectionNum_dotted (d1 : List Char) (gs : List (List Char))
    (h1ne : d1 ≠ []) (h1 : ∀ c ∈ d1, c.isDigit = true)
    (hgs : ∀ g ∈ gs, g ≠ [] ∧ ∀ c ∈ g, c.isDigit = true) :
    parseSectionNum (dottedNum d1 gs) = some (dottedNum d1 gs, []) := by
  have htw : (dottedNum d1 gs).takeWhile Char.isDigit = d1 := by
    rw [dottedNum, takeWhile_all_append Char.isDigit d1 _ h1,
      flatMap_dot_takeWhile_digits, List.append_nil]
  have hdw : (dottedNum d1 gs).dropWhile Char.isDigit = gs.flatMap (fun g => '.' :: g) := by
    rw [dottedNum, dropWhile_all_append Char.isDigit d1 _ h1, flatMap_dot_dropWhile_digits]
  rw [parseSectionNum]
  simp only [htw, hdw]
  rw [if_neg h1ne, takeDotGroups_dotted gs hgs]
  simp only [boundaryOk, if_pos rfl]
  rfl

/-! ## Header matcher lemmas (C6): full-regex computations -/

theorem articleMatch_complete (num : List Char) (hnum : parseArticleNum num = some (num, []))
    (hhead : ∀ c, num.head? = some c → isPySpace c = false) :
    articleMatch ("Article ".data ++ num) = some (num, []) := by
  rw [show ("Article " : String).data = ['A', 'r', 't', 'i', 'c', 'l', 'e', ' '] from rfl]
  have h0 : List.dropWhile isPySpace (['A', 'r', 't', 'i', 'c', 'l', 'e', ' '] ++ num)
      = ['A', 'r', 't', 'i', 'c', 'l', 'e', ' '] ++ num := by
    rw [List.cons_append, List.dropWhile_cons]
    simp [isPySpace]
  have h1 : matchKeywordCI articleKW (['A', 'r', 't', 'i', 'c', 'l', 'e', ' '] ++ num)
      = some (' ' :: num) :=
    matchKeywordCI_exact articleKW ['A', 'r', 't', 'i', 'c', 'l', 'e'] (' ' :: num) (by decide)
  have h2 : List.dropWhile isPySpace num = num := by
    cases hn : num with
    | nil => rfl
    | cons c cs =>
      rw [List.dropWhile_cons, hhead c (by rw [hn]; rfl)]
      simp
  rw [articleMatch, h0, h1]
  simp only [afterKeyword]
  simp only [show isPySpace ' ' = true from rfl, if_true, h2, hnum]
  rfl

theorem sectionMatch_complete (num : List Char) (hnum : parseSectionNum num = some (num, []))
    (hhead : ∀ c, num.head? = some c → isPySpace c = false) :
    sectionMatch ("Section ".data ++ num) = some (num, []) := by
  rw [show ("Section " : String).data = ['S', 'e', 'c', 't', 'i', 'o', 'n', ' '] from rfl]
  have h0 : List.dropWhile isPySpace (['S', 'e', 'c', 't', 'i', 'o', 'n', ' '] ++ num)
      = ['S', 'e', 'c', 't', 'i', 'o', 'n', ' '] ++ num := by
    rw [List.cons_append, List.dropWhile_cons]
    simp [isPySpace]
  have h1 : matchKeywordCI sectionKW (['S', 'e', 'c', 't', 'i', 'o', 'n', ' '] ++ num)
      = some (' ' :: num) :=
    matchKeywordCI_exact sectionKW ['S', 'e', 'c', 't', 'i', 'o', 'n'] (' ' :: num) (by decide)
  have h2 : List.dropWhile isPySpace num = num := by
    cases hn : num with
    | nil => rfl
    | cons c cs =>
      rw [List.dropWhile_cons, hhead c (by rw [hn]; rfl)]
      simp
  rw [sectionMatch, h0, h1]
  simp only [afterKeyword]
  simp only [show isPySpace ' ' = true from rfl, if_true, h2, hnum]
  rfl

theorem articleMatch_section_none (num : List Char) :
    articleMatch ("Section ".data ++ num) = none := by
  rw [show ("Section " : String).data = ['S', 'e', 'c', 't', 'i', 'o', 'n', ' '] from rfl]
  have h0 : List.dropWhile isPySpace (['S', 'e', 'c', 't', 'i', 'o', 'n', ' '] ++ num)
      = ['S', 'e', 'c', 't', 'i', 'o', 'n', ' '] ++ num := by
    rw [List.cons_append, List.dropWhile_cons]
    simp [isPySpace]
  rw [articleMatch, h0]
  have hkw : matchKeywordCI articleKW (['S', 'e', 'c', 't', 'i', 'o', 'n', ' '] ++ num)
      = none := by
    rw [List.cons_append]
    simp only [articleKW, matchKeywordCI]
    rw [if_neg (by decide)]
  rw [hkw]

/-! ## Header matcher lemmas (C6): soundness inversions -/

theorem keywordPrefix_of_match (kw : List Char) (s : String) (s2 : List Char)
    (h : matchKeywordCI kw (s.data.dropWhile isPySpace) = some s2) :
    keywordPrefixCI kw s := by
  obtain ⟨pre, hpre, hmap⟩ := matchKeywordCI_decomp kw _ s2 h
  refine ⟨s.data.takeWhile isPySpace, s.data.dropWhile isPySpace,
    (List.takeWhile_append_dropWhile isPySpace s.data).symm, ?_, ?_⟩
  · intro c hc
    exact List.mem_takeWhile_imp hc
  · rw [hpre]
    have hlen : pre.length = kw.length := by rw [← hmap, List.length_map]
    rw [← hlen, List.take_left]
    exact hmap

theorem parseArticleNum_shape (l num rest : List Char)
    (h : parseArticleNum l = some (num, rest)) :
    num ≠ [] ∧ ((∀ c ∈ num, c.isDigit = true) ∨ (∀ c ∈ num, isRomanChar c = true)) := by
  cases l with
  | nil => exact absurd h (by simp [parseArticleNum])
  | cons c cs =>
    simp only [parseArticleNum] at h
    by_cases hd : c.isDigit = true
    · rw [if_pos hd] at h
      by_cases hb : boundaryOk ((c :: cs).dropWhile Char.isDigit) = true
      · rw [if_pos hb] at h
        have hp : (c :: cs).takeWhile Char.isDigit = num := congrArg Prod.fst (Option.some.inj h)
        constructor
        · rw [← hp, List.takeWhile_cons, hd]
          simp
        · left
          intro x hx
          rw [← hp] at hx
          exact List.mem_takeWhile_imp hx
      · rw [if_neg hb] at h
        exact absurd h (by simp)
    · rw [if_neg hd] at h
      by_cases hr : isRomanChar c = true
      · rw [if_pos hr] at h
        by_cases hb : boundaryOk ((c :: cs).dropWhile isRomanChar) = true
        · rw [if_pos hb] at h
          have hp : (c :: cs).takeWhile isRomanChar = num :=
            congrArg Prod.fst (Option.some.inj h)
          constructor
          · rw [← hp, List.takeWhile_cons, hr]
            simp
          · right
            intro x hx
            rw [← hp] at hx
            exact List.mem_takeWhile_imp hx
        · rw [if_neg hb] at h
          exact absurd h (by simp)
      · rw [if_neg hr] at h
        exact absurd h (by simp)

theorem afterKeyword_inv (numParse : List Char → Option (List Char × List Char))
    (s2 num rest : List Char) (h : afterKeyword numParse s2 = some (num, rest)) :
    ∃ c cs r, s2 = c :: cs ∧ isPySpace c = true ∧
      numParse (cs.dropWhile isPySpace) = some (num, r) := by
  cases s2 with
  | nil => exact absurd h (by simp [afterKeyword])
  | cons c cs =>
    simp only [afterKeyword] at h
    by_cases hsp : isPySpace c = true
    · rw [if_pos hsp] at h
      cases hp : numParse (cs.dropWhile isPySpace) with
      | none => rw [hp] at h; exact absurd h (by simp)
      | some pr =>
        obtain ⟨n0, r0⟩ := pr
        rw [hp] at h
        have h2 : Option.map (fun rest => (n0, rest)) (dotStarDollar r0)
            = some (num, rest) := h
        cases hdd : dotStarDollar r0 with
        | none => rw [hdd] at h2; exact absurd h2 (by simp)
        | some rr =>
          rw [hdd] at h2
          simp only [Option.map_some', Option.some.injEq, Prod.mk.injEq] at h2
          refine ⟨c, cs, r0, rfl, hsp, ?_⟩
          rw [hp, h2.1]
    · rw [if_neg hsp] at h
      exact absurd h (by simp)

theorem takeDotGroups_chars (l : List Char) :
    ∀ g ∈ (takeDotGroups l).1, ∀ c ∈ g, (c.isDigit || c = '.') = true := by
  have hrunchars : ∀ c2 ∈ List.takeWhile (fun d => d.isDigit || d = '.') l,
      (c2.isDigit || c2 = '.') = true := by
    intro c2 hc2
    have h9 := List.mem_takeWhile_imp hc2
    exact h9
  rw [takeDotGroups]
  cases hs : List.splitOn '.' (List.takeWhile (fun d => d.isDigit || d = '.') l) with
  | nil => simp
  | cons first restSegs =>
    intro g hg c hc
    by_cases hf : first = ([] : List Char)
    · have hg2 : g ∈ ((restSegs.takeWhile (fun g => decide (g ≠ [])) : List (List Char)),
          List.drop ((restSegs.takeWhile (fun g => decide (g ≠ []))).flatMap
            (fun g => '.' :: g)).length l).1 := by
        have hg3 : g ∈ (if first = ([] : List Char) then
            (restSegs.takeWhile (fun g => decide (g ≠ [])),
              List.drop ((restSegs.takeWhile (fun g => decide (g ≠ []))).flatMap
                (fun g => '.' :: g)).length l)
            else ([], l)).1 := hg
        rw [if_pos hf] at hg3
        exact hg3
      have hgseg : g ∈ restSegs :=
        (List.takeWhile_prefix (fun g => decide (g ≠ []))).subset hg2
      have hgsplit : g ∈ List.splitOn '.'
          (List.takeWhile (fun d => d.isDigit || d = '.') l) := by
        rw [hs]
        exact List.mem_cons.mpr (Or.inr hgseg)
      have hcrun : c ∈ List.takeWhile (fun d => d.isDigit || d = '.') l := by
        have h1 := mem_intercalate_dot _ g hgsplit c hc
        rwa [List.intercalate_splitOn] at h1
      exact hrunchars c hcrun
    · have hg2 : g ∈ (([] : List (List Char)), l).1 := by
        have hg3 : g ∈ (if first = ([] : List Char) then
            (restSegs.takeWhile (fun g => decide (g ≠ [])),
              List.drop ((restSegs.takeWhile (fun g => decide (g ≠ []))).flatMap
                (fun g => '.' :: g)).length l)
            else ([], l)).1 := hg
        rw [if_neg hf] at hg3
        exact hg3
      exact absurd hg2 (by simp)

theorem parseSectionNum_shape (l num rest : List Char)
    (h : parseSectionNum l = some (num, rest)) :
    num ≠ [] ∧ (∀ c ∈ num, (c.isDigit || c = '.') = true) := by
  simp only [parseSectionNum] at h
  by_cases h1 : l.takeWhile Char.isDigit = []
  · rw [if_pos h1] at h
    exact absurd h (by simp)
  · rw [if_neg h1] at h
    have hd1 : ∀ c ∈ l.takeWhile Char.isDigit, (c.isDigit || c = '.') = true := by
      intro c hc
      simp [List.mem_takeWhile_imp hc]
    have hgchars := takeDotGroups_chars (l.dropWhile Char.isDigit)
    by_cases hb : boundaryOk (takeDotGroups (l.dropWhile Char.isDigit)).2 = true
    · rw [if_pos hb] at h
      have hnum : dottedNum (l.takeWhile Char.isDigit)
          (takeDotGroups (l.dropWhile Char.isDigit)).1 = num :=
        congrArg Prod.fst (Option.some.inj h)
      constructor
      · rw [← hnum, dottedNum]
        intro he
        exact h1 (List.append_eq_nil.mp he).1
      · rw [← hnum]
        exact dottedNum_chars _ _ hd1 hgchars
    · rw [if_neg hb] at h
      cases hrev : (takeDotGroups (l.dropWhile Char.isDigit)).1.reverse with
      | nil => rw [hrev] at h; exact absurd h (by simp)
      | cons lastG revInit =>
        rw [hrev] at h
        have hnum : dottedNum (l.takeWhile Char.isDigit) revInit.reverse = num :=
          congrArg Prod.fst (Option.some.inj h)
        have hsub : ∀ g ∈ revInit.reverse,
            g ∈ (takeDotGroups (l.dropWhile Char.isDigit)).1 := by
          intro g hg
          have h2 : g ∈ lastG :: revInit := List.mem_cons.mpr (Or.inr (List.mem_reverse.mp hg))
          rw [← hrev] at h2
          exact List.mem_reverse.mp h2
        constructor
        · rw [← hnum, dottedNum]
          intro he
          exact h1 (List.append_eq_nil.mp he).1
        · rw [← hnum]
          exact dottedNum_chars _ _ hd1 (fun g hg => hgchars g (hsub g hg))

theorem articleMatch_inv (l num rest : List Char)
    (h : articleMatch l = some (num, rest)) :
    (∃ s2, matchKeywordCI articleKW (l.dropWhile isPySpace) = some s2) ∧
    num ≠ [] ∧ ((∀ c ∈ num, c.isDigit = true) ∨ (∀ c ∈ num, isRomanChar c = true)) := by
  rw [articleMatch] at h
  cases hk : matchKeywordCI articleKW (l.dropWhile isPySpace) with
  | none => rw [hk] at h; exact absurd h (by simp)
  | some s2 =>
    rw [hk] at h
    obtain ⟨c, cs, r, _, _, hnum⟩ := afterKeyword_inv _ _ _ _ h
    have hshape := parseArticleNum_shape _ _ _ hnum
    exact ⟨⟨s2, rfl⟩, hshape.1, hshape.2⟩

theorem sectionMatch_inv (l num rest : List Char)
    (h : sectionMatch l = some (num, rest)) :
    (∃ s2, matchKeywordCI sectionKW (l.dropWhile isPySpace) = some s2) ∧
    num ≠ [] ∧ (∀ c ∈ num, (c.isDigit || c = '.') = true) := by
  rw [sectionMatch] at h
  cases hk : matchKeywordCI sectionKW (l.dropWhile isPySpace) with
  | none => rw [hk] at h; exact absurd h (by simp)
  | some s2 =>
    rw [hk] at h
    obtain ⟨c, cs, r, _, _, hnum⟩ := afterKeyword_inv _ _ _ _ h
    have hshape := parseSectionNum_shape _ _ _ hnum
    exact ⟨⟨s2, rfl⟩, hshape.1, hshape.2⟩

theorem splitOn_dottedNum (d1 : List Char) (gs : List (List Char))
    (h1 : ∀ c ∈ d1, c.isDigit = true) (hgs : ∀ g ∈ gs, ∀ c ∈ g, c.isDigit = true) :
    List.splitOn '.' (dottedNum d1 gs) = d1 :: gs := by
  rw [dottedNum_eq_intercalate]
  refine List.splitOn_intercalate _ '.' ?_ (by simp)
  intro l hl
  rcases List.mem_cons.mp hl with rfl | hl2
  · intro hdot
    exact digit_not_dot '.' (h1 '.' hdot) rfl
  · intro hdot
    exact digit_not_dot '.' (hgs l hl2 '.' hdot) rfl

/-! ## Claim theorem: header matcher (C6) -/

/-- C6: the Header Matcher classifies a line starting (case-insensitively,
after optional leading whitespace) with "Article <N>" — N a digit run or a
Roman-numeral-letter run — as an article header with level 1, and a line
starting with "Section <N[.N...]>" — a dot-separated numeric path — as a
section header with level `2 + max(depth - 1, 0)` where depth is the
number of dot-separated segments of N; and a line of neither shape is no
match: every successful match carries one of the two keywords and a number
of the corresponding shape (first conjunct), and every line of the
described forms matches with the stated level (remaining conjuncts; so
"Section 2" has level 2, "Section 2.1" level 3, "Section 2.1.1" level 4). -/
theorem C6_header_matcher :
    (∀ (s : String) (h : HeaderMatch), _match_header s = some h →
      (h.header_type = "article" ∧ h.level = 1 ∧ h.number.data ≠ [] ∧
        ((∀ c ∈ h.number.data, c.isDigit = true) ∨
         (∀ c ∈ h.number.data, isRomanChar c = true)) ∧
        keywordPrefixCI articleKW s) ∨
      (h.header_type = "section" ∧
        h.level = 2 + max ((List.splitOn '.' h.number.data).length - 1) 0 ∧
        h.number.data ≠ [] ∧ (∀ c ∈ h.number.data, (c.isDigit || c = '.') = true) ∧
        keywordPrefixCI sectionKW s)) ∧
    (∀ ds : List Char, ds ≠ [] → (∀ c ∈ ds, c.isDigit = true) →
      _match_header ⟨"Article ".data ++ ds⟩ =
        some ⟨"article", ⟨ds⟩, "", 1⟩) ∧
    (∀ rs : List Char, rs ≠ [] → (∀ c ∈ rs, isRomanChar c = true) →
      _match_header ⟨"Article ".data ++ rs⟩ =
        some ⟨"article", ⟨rs⟩, "", 1⟩) ∧
    (∀ (d1 : List Char) (gs : List (List Char)), d1 ≠ [] →
      (∀ c ∈ d1, c.isDigit = true) →
      (∀ g ∈ gs, g ≠ [] ∧ ∀ c ∈ g, c.isDigit = true) →
      _match_header ⟨"Section ".data ++ dottedNum d1 gs⟩ =
        some ⟨"section", ⟨dottedNum d1 gs⟩, "", 2 + gs.length⟩) := by
  refine ⟨?_, ?_, ?_, ?_⟩
  · intro s h hm
    rw [_match_header] at hm
    cases ha : articleMatch s.data with
    | some pr =>
      obtain ⟨num, rest⟩ := pr
      rw [ha] at hm
      have hm2 : some ({ header_type := "article", number := ⟨num⟩, remainder := ⟨stripSetL punctChars rest⟩, level := 1 } : HeaderMatch) = some h := hm
      obtain rfl := Option.some.inj hm2
      left
      obtain ⟨hkw, hne, hshape⟩ := articleMatch_inv s.data num rest ha
      obtain ⟨s2, hs2⟩ := hkw
      exact ⟨rfl, rfl, hne, hshape, keywordPrefix_of_match articleKW s s2 hs2⟩
    | none =>
      rw [ha] at hm
      cases hsec : sectionMatch s.data with
      | none =>
        rw [hsec] at hm
        exact absurd hm (by simp)
      | some pr =>
        obtain ⟨num, rest⟩ := pr
        rw [hsec] at hm
        have hm2 : some ({ header_type := "section", number := ⟨num⟩, remainder := ⟨stripSetL punctChars rest⟩, level := 2 + max ((List.splitOn '.' num).length - 1) 0 } : HeaderMatch) = some h := hm
        obtain rfl := Option.some.inj hm2
        right
        obtain ⟨hkw, hne, hchars⟩ := sectionMatch_inv s.data num rest hsec
        obtain ⟨s2, hs2⟩ := hkw
        exact ⟨rfl, rfl, hne, hchars, keywordPrefix_of_match sectionKW s s2 hs2⟩
  · intro ds hne hd
    have hhead : ∀ c, ds.head? = some c → isPySpace c = false := by
      intro c hc
      cases ds with
      | nil => simp at hc
      | cons c0 cs =>
        simp only [List.head?_cons, Option.some.injEq] at hc
        subst hc
        exact digit_not_space c0 (hd c0 (by simp))
    have hart : articleMatch ("Article ".data ++ ds) = some (ds, []) :=
      articleMatch_complete ds (parseArticleNum_digits ds hne hd) hhead
    rw [_match_header,
      show ((⟨"Article ".data ++ ds⟩ : String)).data = "Article ".data ++ ds from rfl,
      hart]
    rfl
  · intro rs hne hr
    have hhead : ∀ c, rs.head? = some c → isPySpace c = false := by
      intro c hc
      cases rs with
      | nil => simp at hc
      | cons c0 cs =>
        simp only [List.head?_cons, Option.some.injEq] at hc
        subst hc
        exact roman_not_space c0 (hr c0 (by simp))
    have hart : articleMatch ("Article ".data ++ rs) = some (rs, []) :=
      articleMatch_complete rs (parseArticleNum_roman rs hne hr) hhead
    rw [_match_header,
      show ((⟨"Article ".data ++ rs⟩ : String)).data = "Article ".data ++ rs from rfl,
      hart]
    rfl
  · intro d1 gs h1ne h1 hgs
    have hhead : ∀ c, (dottedNum d1 gs).head? = some c → isPySpace c = false := by
      intro c hc
      rw [dottedNum, List.head?_append_of_ne_nil _ h1ne] at hc
      cases d1 with
      | nil => exact absurd rfl h1ne
      | cons c0 cs =>
        simp only [List.head?_cons, Option.some.injEq] at hc
        subst hc
        exact digit_not_space c0 (h1 c0 (by simp))
    have hsec : sectionMatch ("Section ".data ++ dottedNum d1 gs)
        = some (dottedNum d1 gs, []) :=
      sectionMatch_complete _ (parseSectionNum_dotted d1 gs h1ne h1 hgs) hhead
    have hart := articleMatch_section_none (dottedNum d1 gs)
    rw [_match_header,
      show ((⟨"Section ".data ++ dottedNum d1 gs⟩ : String)).data
        = "Section ".data ++ dottedNum d1 gs from rfl,
      hart, hsec]
    show some ({ header_type := "section", number := ⟨dottedNum d1 gs⟩, remainder := ⟨stripSetL punctChars []⟩, level := 2 + max ((List.splitOn '.' (dottedNum d1 gs)).length - 1) 0 } : HeaderMatch) = some ⟨"section", ⟨dottedNum d1 gs⟩, "", 2 + gs.length⟩
    rw [splitOn_dottedNum d1 gs h1 (fun g hg => (hgs g hg).2)]
    have hlen : (d1 :: gs).length - 1 = gs.length := by simp
    rw [hlen, Nat.max_zero]
    rfl

/-- Witness for C6: the canonical "Section 2.1.1" input gets level 4. -/
theorem C6_header_matcher_witness :
    _match_header ⟨"Section ".data ++ dottedNum ['2'] [['1'], ['1']]⟩ =
      some ⟨"section", ⟨dottedNum ['2'] [['1'], ['1']]⟩, "", 2 + 2⟩ :=
  C6_header_matcher.2.2.2 ['2'] [['1'], ['1']] (by decide) (by decide) (by decide)

end LexFlow
